import Mathlib

/-!
# The TGA image codec of CEGUI (`CEGUITGAImageCodec.cpp`) and the scrollbar position

A shallow embedding of `TGAImageCodec::loadTGA`, `flipImageTGA`, `convert24to32` and `load`,
and of `Scrollbar::setScrollPosition` (`CEGUIScrollbar.cpp`), followed by theorems about them.

Conventions of the embedding.

* A byte (`unsigned char`) is a `Fin 256`; its arithmetic wraps modulo 256 as in C++.
  `GLbyte` is a signed char and `short` a signed 16-bit value: both are obtained from the
  bytes read by an explicit two's complement conversion.
* A value of type `int` has 32 bits.  The size `stride * height` that `loadTGA` passes to
  `new` is the one product of the function that can leave this range; it is reduced to
  its low 32 bits, signed (`toInt`), which is what the compiled code computes.  The other
  `int` values of `loadTGA` (`channels * width`, `width * height`, the indices of a store
  inside a block) are within the range and are exact.  `colorsRead`, which can grow past a
  block, is exact as well: with 3 or 4 channels it leaves the range only at stores that lie
  outside the block in either reading.  The products of `flipImageTGA` and `convert24to32`
  are exact; the theorems about them take a block of that many bytes.
* A length passed to `memcpy` is a `size_t` of 64 bits: a negative `int` becomes `2^64`
  plus its value (`toSizeT`).
* A heap block or the input buffer is a `List Byte`, a pointer into it an `Int` offset.
  A read outside the list is undefined behaviour: it has no value here (`none`), and the
  run is followed no further.  `Loaded.outOfBounds` records that such a read has taken
  place; it says nothing about what a compiled program does from there on.
  A write outside a block leaves the block as it is: the byte lands in memory that is not
  part of the block, and the run goes on as the compiled code does.
* `new unsigned char[n]` gives a block of `n` bytes with arbitrary content, taken from the
  parameter `junk`; it fails (it throws) for a negative `n`.
* A `float` of the scrollbar is an exact rational number.
* The host is little-endian (the `__BIG_ENDIAN__` branch yields the same width and height).
-/

namespace CEGUI

/-- An `unsigned char`. -/
abbrev Byte := Fin 256

/-- The value `p[i]` of a read from the block `p`; `none` when `i` is outside the block. -/
def peek (p : List Byte) (i : Int) : Option Byte :=
  if 0 ≤ i then p[i.toNat]? else none

/-- The block after `p[i] = v`; unchanged when `i` is outside the block. -/
def poke (p : List Byte) (i : Int) (v : Byte) : List Byte :=
  if 0 ≤ i then p.set i.toNat v else p

/-- The block returned by `new unsigned char[n]`: `n` bytes of arbitrary content, or a failed
allocation when `n` is negative. -/
def newBytes (junk : Nat → Byte) (n : Int) : Option (List Byte) :=
  if 0 ≤ n then some ((List.range n.toNat).map junk) else none

/-- Conversion `static_cast<unsigned char>(x)`. -/
def toUChar (x : Nat) : Byte := ⟨x % 256, Nat.mod_lt x (by decide)⟩

/-- The value of a byte read into a `GLbyte` (signed char). -/
def toGLbyte (b : Byte) : Int :=
  if b.val < 128 then (b.val : Int) else (b.val : Int) - 256

/-- The value of two bytes read into a `short`, low byte first. -/
def toShort (lo hi : Byte) : Int :=
  if lo.val + 256 * hi.val < 32768 then ((lo.val + 256 * hi.val : Nat) : Int)
  else ((lo.val + 256 * hi.val : Nat) : Int) - 65536

/-- The value of an `int` product whose exact value is `x`: its low 32 bits, signed. -/
def toInt (x : Int) : Int := (x + 2147483648) % 4294967296 - 2147483648

/-- The `size_t` value of the `int` `n` given as the length of a `memcpy`. -/
def toSizeT (n : Int) : Nat := if 0 ≤ n then n.toNat else (18446744073709551616 + n).toNat

/-- Modelled from the spec: the record `ImageTGA`, declared in `CEGUITGAImageCodec.h`, which is
not among the sources; it has the four fields the code uses. -/
structure ImageTGA where
  channels : Int
  sizeX : Int
  sizeY : Int
  data : List Byte
deriving DecidableEq

/-- Modelled from the spec: the constant `TGA_RLE` of `CEGUITGAImageCodec.h`, the image type of a
run-length-encoded true-color file, 10. -/
def TGA_RLE : Int := 10

/-! ## flipImageTGA -/

/-- The inner loop of `flipImageTGA`: `n` more iterations from column `colBit`, each swapping
`data[dstOffest + colBit]` and `data[srcOffset + colBit]`. -/
def flipColBits (srcOffset dstOffest : Int) : Nat → Int → List Byte → Option (List Byte)
  | 0, _, data => some data
  | n + 1, colBit, data =>
    match peek data (dstOffest + colBit), peek data (srcOffset + colBit) with
    | some tmp, some s =>
      flipColBits srcOffset dstOffest n (colBit + 1)
        (poke (poke data (dstOffest + colBit) s) (srcOffset + colBit) tmp)
    | _, _ => none

/-- The outer loop of `flipImageTGA`: `n` more iterations from line `line`. -/
def flipLines (sizeY pitch : Int) : Nat → Int → List Byte → Option (List Byte)
  | 0, _, data => some data
  | n + 1, line, data =>
    match flipColBits (line * pitch) ((sizeY - line - 1) * pitch) pitch.toNat 0 data with
    | some data' => flipLines sizeY pitch n (line + 1) data'
    | none => none

/-- `TGAImageCodec::flipImageTGA`, with the block that follows its heading as its body: the
image after the call, `none` when a read leaves `img->data`. The line loop runs `sizeY / 2`
times, the column loop `pitch` times. -/
def flipImageTGA (img : ImageTGA) : Option ImageTGA :=
  match flipLines img.sizeY (img.sizeX * img.channels) (img.sizeY.tdiv 2).toNat 0 img.data with
  | some data => some { img with data := data }
  | none => none

/-! ## convert24to32 -/

/-- What a call of `convert24to32` does: the image it leaves behind, the size of the block it
obtains from `new`, and the stores `data[newI++] = v` it performs, in order, each as the pair
of the index stored to and the value. -/
structure Converted where
  img : ImageTGA
  allocated : Int
  writes : List (Int × Byte)
deriving DecidableEq

/-- The loop of `convert24to32`: `n` more iterations from source index `i`, with `newI` the next
index to store to and `writes` the stores made so far. The second store of the source is
written `data[mewI++] = 0xff`; `mewI` is read as `newI`, the only index variable declared. -/
def convert24to32Loop (src : List Byte) :
    Nat → Int → Int → List (Int × Byte) → Option (List (Int × Byte))
  | 0, _, _, writes => some writes
  | n + 1, i, newI, writes =>
    match peek src i with
    | none => none
    | some v =>
      if 0 = Int.tmod i 3 then
        convert24to32Loop src n (i + 1) (newI + 2) (writes ++ [(newI, v), (newI + 1, 0xff)])
      else
        convert24to32Loop src n (i + 1) (newI + 1) (writes ++ [(newI, v)])

/-- `TGAImageCodec::convert24to32`: `none` when a read leaves `img->data` or the allocation
fails. The function stores into its local block `data` only; `img` is not assigned to. -/
def convert24to32 (img : ImageTGA) : Option Converted :=
  if 0 ≤ img.sizeX * img.sizeY * img.channels then
    match convert24to32Loop img.data (img.sizeX * img.sizeY * img.channels).toNat 0 0 [] with
    | some writes =>
      some { img := img, allocated := img.sizeX * img.sizeY * img.channels, writes := writes }
    | none => none
  else none

/-! ## loadTGA -/

/-- The five header values `loadTGA` reads into its locals `length`, `imageType`, `width`,
`height` and `bits`. -/
structure Header where
  length : Int
  imageType : Int
  width : Int
  height : Int
  bits : Int
deriving DecidableEq

/-- The header reads of `loadTGA`: `length` at offset 0, one byte jumped over, `imageType` at
offset 2, nine bytes skipped, `width` at 12, `height` at 14, `bits` at 16. -/
def readHeader (buffer : List Byte) : Option Header :=
  match peek buffer 0 with
  | none => none
  | some length =>
  match peek buffer 2 with
  | none => none
  | some imageType =>
  match peek buffer 12, peek buffer 13 with
  | some w0, some w1 =>
    match peek buffer 14, peek buffer 15 with
    | some h0, some h1 =>
      match peek buffer 16 with
      | none => none
      | some bits =>
        some { length := toGLbyte length, imageType := toGLbyte imageType,
               width := toShort w0 w1, height := toShort h0 h1, bits := toGLbyte bits }
    | _, _ => none
  | _, _ => none

/-- The result of a run of `loadTGA`: a read outside the input or outside `pColors` has taken
place (undefined behaviour, the run is followed no further), an allocation has failed, 0 is
returned, or an image is returned. -/
inductive Loaded where
  | outOfBounds
  | badAlloc
  | null
  | image (img : ImageTGA)
deriving DecidableEq

/-- Copy by `memcpy(dst + d, src + s, n)`: `none` when a read leaves `src`. -/
def memcpy (src : List Byte) : Nat → Int → Int → List Byte → Option (List Byte)
  | 0, _, _, dst => some dst
  | n + 1, d, s, dst =>
    match peek src s with
    | none => none
    | some v => memcpy src n (d + 1) (s + 1) (poke dst d v)

/-- The bytes `src[s], ..., src[s + n - 1]`, as `memcpy` reads them into a fresh array. -/
def readBytes (src : List Byte) : Nat → Int → Option (List Byte)
  | 0, _ => some []
  | n + 1, s =>
    match peek src s with
    | none => none
    | some v =>
      match readBytes src n (s + 1) with
      | none => none
      | some vs => some (v :: vs)

/-- The loop `for(i = 0; i < stride; i += channels)` over the line starting at `pLine`, which
swaps `pLine[i]` and `pLine[i + 2]`; `fuel` bounds the number of iterations. -/
def swapLine (pLine stride channels : Int) : Nat → Int → List Byte → Option (List Byte)
  | 0, _, data => some data
  | fuel + 1, i, data =>
    if i < stride then
      match peek data (pLine + i), peek data (pLine + (i + 2)) with
      | some temp, some v =>
        swapLine pLine stride channels fuel (i + channels)
          (poke (poke data (pLine + i) v) (pLine + (i + 2)) temp)
      | _, _ => none
    else some data

/-- The loop `for(int y = 0; y < height; y++)` of the 24/32-bit branch: `n` more lines from
line `y`, with the read pointer at `buffer + cur`. The `int` `stride` is the length given to
`memcpy`, a `size_t`. -/
def loadLines (buffer : List Byte) (stride channels : Int) :
    Nat → Int → Int → List Byte → Option (List Byte)
  | 0, _, _, data => some data
  | n + 1, y, cur, data =>
    match memcpy buffer (toSizeT stride) (stride * y) cur data with
    | none => none
    | some data1 =>
      match swapLine (stride * y) stride channels stride.toNat 0 data1 with
      | none => none
      | some data2 => loadLines buffer stride channels n (y + 1) (cur + stride) data2

/-- The loop `for(int i = 0; i < width*height; i++)` of the 16-bit branch: `n` more pixels from
pixel `i`, with the read pointer at `buffer + cur`. -/
def load16 (buffer : List Byte) : Nat → Int → Int → List Byte → Option (List Byte)
  | 0, _, _, data => some data
  | n + 1, i, cur, data =>
    match peek buffer cur, peek buffer (cur + 1) with
    | some lo, some hi =>
      let pixels : Nat := lo.val + 256 * hi.val
      let b := toUChar ((pixels &&& 0x1f) <<< 3)
      let g := toUChar (((pixels >>> 5) &&& 0x1f) <<< 3)
      let r := toUChar (((pixels >>> 10) &&& 0x1f) <<< 3)
      load16 buffer n (i + 1) (cur + 2)
        (poke (poke (poke data (i * 3 + 0) r) (i * 3 + 1) g) (i * 3 + 2) b)
    | _, _ => none

/-- The variables of the RLE loop: the read offset into the input, the pixel counter `i`,
`colorsRead`, and the block `pImageData->data`. -/
structure RleState where
  cur : Int
  i : Int
  colorsRead : Int
  data : List Byte
deriving DecidableEq

/-- The stores of one pixel in the RLE branch: `pColors[2]`, `pColors[1]`, `pColors[0]` to
`data[colorsRead + 0 .. 2]`, and `pColors[3]` to `data[colorsRead + 3]` when `bits == 32`. -/
def storeColors (bits : Int) (pColors : List Byte) (colorsRead : Int) (data : List Byte) :
    Option (List Byte) :=
  match peek pColors 2, peek pColors 1, peek pColors 0 with
  | some c2, some c1, some c0 =>
    if bits = 32 then
      match peek pColors 3 with
      | some c3 =>
        some (poke (poke (poke (poke data (colorsRead + 0) c2) (colorsRead + 1) c1)
          (colorsRead + 2) c0) (colorsRead + 3) c3)
      | none => none
    else
      some (poke (poke (poke data (colorsRead + 0) c2) (colorsRead + 1) c1) (colorsRead + 2) c0)
  | _, _, _ => none

/-- The loop `while(rleID)` of a packet with `rleID < 128`: `rleID` more pixels, each read from
the input and stored. -/
def rleLiteral (buffer : List Byte) (bits channels : Int) : Nat → RleState → Option RleState
  | 0, s => some s
  | rleID + 1, s =>
    match readBytes buffer channels.toNat s.cur with
    | none => none
    | some pColors =>
      match storeColors bits pColors s.colorsRead s.data with
      | none => none
      | some data =>
        rleLiteral buffer bits channels rleID
          { cur := s.cur + channels, i := s.i + 1, colorsRead := s.colorsRead + channels,
            data := data }

/-- The loop `while(rleID)` of a packet with `rleID >= 128`: `rleID` more copies of the pixel
held in `pColors`. -/
def rleRepeat (bits channels : Int) (pColors : List Byte) : Nat → RleState → Option RleState
  | 0, s => some s
  | rleID + 1, s =>
    match storeColors bits pColors s.colorsRead s.data with
    | none => none
    | some data =>
      rleRepeat bits channels pColors rleID
        { cur := s.cur, i := s.i + 1, colorsRead := s.colorsRead + channels, data := data }

/-- One iteration of `while(i < width*height)`: the control byte is read, then `rleID++` and
the literal pixels, or `rleID -= 127`, one pixel read and its copies. -/
def rlePacket (buffer : List Byte) (bits channels : Int) (s : RleState) : Option RleState :=
  match peek buffer s.cur with
  | none => none
  | some rleID =>
    if rleID.val < 128 then
      rleLiteral buffer bits channels (rleID + 1).val { s with cur := s.cur + 1 }
    else
      match readBytes buffer channels.toNat (s.cur + 1) with
      | none => none
      | some pColors =>
        rleRepeat bits channels pColors (rleID - 127).val
          { s with cur := s.cur + 1 + channels }

/-- The loop `while(i < width*height)`, with `pixels = width*height`; `fuel` bounds the number
of packets. -/
def rleLoop (buffer : List Byte) (bits channels pixels : Int) : Nat → RleState → Option RleState
  | 0, s => some s
  | fuel + 1, s =>
    if s.i < pixels then
      match rlePacket buffer bits channels s with
      | none => none
      | some s' => rleLoop buffer bits channels pixels fuel s'
    else some s

/-- The state in which the RLE loop of `loadTGA` stops on the input `buffer` with header `h`
and destination block `data`. Every packet raises `i` by at least one, so `width*height`
packets suffice. -/
def rleRun (buffer : List Byte) (h : Header) (data : List Byte) : Option RleState :=
  rleLoop buffer h.bits (h.bits.tdiv 8) (h.width * h.height) (h.width * h.height).toNat
    { cur := 17 + (h.length + 1), i := 0, colorsRead := 0, data := data }

/-- `TGAImageCodec::loadTGA` on the input `buffer` (its length is `buffer_size`). After the
header the read pointer stands at offset 17 and is moved by `length + 1`. The size
`stride * height` of each allocation is an `int` product. -/
def loadTGA (junk : Nat → Byte) (buffer : List Byte) : Loaded :=
  match readHeader buffer with
  | none => .outOfBounds
  | some h =>
    if h.imageType ≠ TGA_RLE then
      if h.bits = 24 ∨ h.bits = 32 then
        match newBytes junk (toInt (h.bits.tdiv 8 * h.width * h.height)) with
        | none => .badAlloc
        | some data =>
          match loadLines buffer (h.bits.tdiv 8 * h.width) (h.bits.tdiv 8) h.height.toNat 0
              (17 + (h.length + 1)) data with
          | none => .outOfBounds
          | some data' =>
            .image { channels := h.bits.tdiv 8, sizeX := h.width, sizeY := h.height,
                     data := data' }
      else if h.bits = 16 then
        match newBytes junk (toInt (3 * h.width * h.height)) with
        | none => .badAlloc
        | some data =>
          match load16 buffer (h.width * h.height).toNat 0 (17 + (h.length + 1)) data with
          | none => .outOfBounds
          | some data' =>
            .image { channels := 3, sizeX := h.width, sizeY := h.height, data := data' }
      else .null
    else
      match newBytes junk (toInt (h.bits.tdiv 8 * h.width * h.height)) with
      | none => .badAlloc
      | some data =>
        if h.bits.tdiv 8 < 0 then .badAlloc
        else
          match rleRun buffer h data with
          | none => .outOfBounds
          | some s =>
            .image { channels := h.bits.tdiv 8, sizeX := h.width, sizeY := h.height,
                     data := s.data }

/-! ## load -/

/-- Modelled from the spec: the arguments `load` passes to `Texture::loadFromMemory` (the texture
interface is not among the sources): the pixel buffer `img->data` and the size given by
`getWidth()` and `getHeight()`, the fields `sizeX` and `sizeY`. -/
structure Upload where
  data : List Byte
  width : Int
  height : Int
deriving DecidableEq

/-- The result of `TGAImageCodec::load`: the return of 0, a run that is stopped by a failed
allocation or by a read outside a block, or the call of `loadFromMemory`. -/
inductive LoadResult where
  | null
  | stopped
  | loaded (up : Upload)
deriving DecidableEq

/-- `TGAImageCodec::load`: `loadTGA`, then `flipImageTGA`, then `convert24to32` when the image
has three channels, then `loadFromMemory(img->data, img->getWidth(), img->getHeight())`. -/
def load (junk : Nat → Byte) (buffer : List Byte) : LoadResult :=
  match loadTGA junk buffer with
  | .outOfBounds => .stopped
  | .badAlloc => .stopped
  | .null => .null
  | .image img =>
    match flipImageTGA img with
    | none => .stopped
    | some img1 =>
      if img1.channels = 3 then
        match convert24to32 img1 with
        | none => .stopped
        | some c => .loaded { data := c.img.data, width := c.img.sizeX, height := c.img.sizeY }
      else .loaded { data := img1.data, width := img1.sizeX, height := img1.sizeY }

/-! ## Sample inputs -/

/-- A three-line image of one 3-channel pixel per line. -/
def flipSample : ImageTGA :=
  { channels := 3, sizeX := 1, sizeY := 3, data := [1, 2, 3, 4, 5, 6, 7, 8, 9] }

/-- A heap whose fresh blocks are filled with zero bytes. -/
def zeroFill : Nat → Byte := fun _ => 0

/-- The uncompressed 1x1 24-bit file: 18 header bytes, no identification field, and the pixel
bytes (255, 0, 0). -/
def tga24 : List Byte :=
  [0, 0, 2, 0, 0, 0, 0, 0, 0, 0, 0, 0, 1, 0, 1, 0, 24, 0, 255, 0, 0]

/-- The header values of `tga24`. -/
def tga24Header : Header := { length := 0, imageType := 2, width := 1, height := 1, bits := 24 }

/-- The uncompressed 2x1 16-bit file with the pixel words 0x0000 and 0xFFFF. -/
def tga16 : List Byte :=
  [0, 0, 2, 0, 0, 0, 0, 0, 0, 0, 0, 0, 2, 0, 1, 0, 16, 0, 0, 0, 255, 255]

/-- The header values of `tga16`. -/
def tga16Header : Header := { length := 0, imageType := 2, width := 2, height := 1, bits := 16 }

/-- A 3-channel image of one pixel with bytes (1, 2, 3). -/
def onePixel : ImageTGA := { channels := 3, sizeX := 1, sizeY := 1, data := [1, 2, 3] }

/-- A 2x2 24-bit RLE file: a literal packet of two pixels, then a run packet of two pixels. -/
def tgaRle : List Byte :=
  [0, 0, 10, 0, 0, 0, 0, 0, 0, 0, 0, 0, 2, 0, 2, 0, 24, 0, 1, 1, 2, 3, 4, 5, 6, 129, 7, 8, 9]

/-- The header values of `tgaRle`. -/
def tgaRleHeader : Header := { length := 0, imageType := 10, width := 2, height := 2, bits := 24 }

/-- The variables of the RLE loop on `tgaRle` before the first packet. -/
def rleStart : RleState :=
  { cur := 18, i := 0, colorsRead := 0, data := [0, 0, 0, 0, 0, 0, 0, 0, 0, 0, 0, 0] }

/-- The variables of the RLE loop on `tgaRle` after the first packet. -/
def rleMiddle : RleState :=
  { cur := 25, i := 2, colorsRead := 6, data := [3, 2, 1, 6, 5, 4, 0, 0, 0, 0, 0, 0] }

/-- A 1x1 24-bit RLE file whose only packet is a run of two pixels. -/
def rleOver : List Byte :=
  [0, 0, 10, 0, 0, 0, 0, 0, 0, 0, 0, 0, 1, 0, 1, 0, 24, 0, 129, 7, 8, 9]

/-- The header values of `rleOver`. -/
def rleOverHeader : Header := { length := 0, imageType := 10, width := 1, height := 1, bits := 24 }

/-- An RLE header (image type 10) with 17 bits per pixel, width 0 and height 0. -/
def rle17 : List Byte := [0, 0, 10, 0, 0, 0, 0, 0, 0, 0, 0, 0, 0, 0, 0, 0, 17, 0]

/-- The first 17 bytes of an uncompressed header with 17 bits per pixel. -/
def raw17 : List Byte := [0, 0, 2, 0, 0, 0, 0, 0, 0, 0, 0, 0, 1, 0, 1, 0, 17]

/-- The file `tga24` with the image type 3 instead of 2. -/
def tgaType3 : List Byte :=
  [0, 0, 3, 0, 0, 0, 0, 0, 0, 0, 0, 0, 1, 0, 1, 0, 24, 0, 255, 0, 0]

/-- The header values of `tgaType3`. -/
def tgaType3Header : Header :=
  { length := 0, imageType := 3, width := 1, height := 1, bits := 24 }

/-- The header values of `raw17`. -/
def raw17Header : Header := { length := 0, imageType := 2, width := 1, height := 1, bits := 17 }

/-- A 1x1 RLE file with 16 bits per pixel: a literal packet of one pixel word. -/
def rle16 : List Byte :=
  [0, 0, 10, 0, 0, 0, 0, 0, 0, 0, 0, 0, 1, 0, 1, 0, 16, 0, 0, 255, 127]

/-- An RLE header with 16 bits per pixel, width 0 and height 0. -/
def rle16Empty : List Byte := [0, 0, 10, 0, 0, 0, 0, 0, 0, 0, 0, 0, 0, 0, 0, 0, 16, 0]

/-- An uncompressed 24-bit header with width 0 and height 0. -/
def tgaEmpty : List Byte := [0, 0, 2, 0, 0, 0, 0, 0, 0, 0, 0, 0, 0, 0, 0, 0, 24, 0]

/-- An uncompressed 24-bit header whose width and height bytes are FF FF, the value -1. -/
def tgaNegative : List Byte :=
  [0, 0, 2, 0, 0, 0, 0, 0, 0, 0, 0, 0, 255, 255, 255, 255, 24, 0]

/-- A 1x1 24-bit uncompressed file of 20 bytes whose byte 0 (idLength) is 255. -/
def tgaId255 : List Byte :=
  [255, 0, 2, 0, 0, 0, 0, 0, 0, 0, 0, 0, 1, 0, 1, 0, 24, 9, 1, 2]

/-- An uncompressed 24-bit file of width 32767 and height 21847 with all its
`32767 * 21847 * 3 = 2147581947` pixel bytes, each 0. -/
def tga24Huge : List Byte :=
  [0, 0, 2, 0, 0, 0, 0, 0, 0, 0, 0, 0, 255, 127, 87, 85, 24, 0] ++
    List.replicate 2147581947 0

/-- The header values of `tga24Huge`. -/
def tga24HugeHeader : Header :=
  { length := 0, imageType := 2, width := 32767, height := 21847, bits := 24 }

/-- An uncompressed 16-bit file of width 32767 and height 21847 with all its
`32767 * 21847 * 2 = 1431721298` pixel bytes, each 0. -/
def tga16Huge : List Byte :=
  [0, 0, 2, 0, 0, 0, 0, 0, 0, 0, 0, 0, 255, 127, 87, 85, 16, 0] ++
    List.replicate 1431721298 0

/-- The header values of `tga16Huge`. -/
def tga16HugeHeader : Header :=
  { length := 0, imageType := 2, width := 32767, height := 21847, bits := 16 }

/-- An uncompressed 16-bit file with the width bytes FF FF, height 1 and `2 * 65535` bytes of
pixel data, each 0. -/
def tga16Wide : List Byte :=
  [0, 0, 2, 0, 0, 0, 0, 0, 0, 0, 0, 0, 255, 255, 1, 0, 16, 0] ++ List.replicate 131070 0

/-- The header values of `tga16Wide`: the width is read as a signed value. -/
def tga16WideHeader : Header :=
  { length := 0, imageType := 2, width := -1, height := 1, bits := 16 }

/-- A 32-bit RLE header with the width bytes 00 80 and the height bytes FF 7F, and no stream. -/
def rleWrap : List Byte := [0, 0, 10, 0, 0, 0, 0, 0, 0, 0, 0, 0, 0, 128, 255, 127, 32, 0]

/-- The header values of `rleWrap`. -/
def rleWrapHeader : Header :=
  { length := 0, imageType := 10, width := -32768, height := 32767, bits := 32 }

/-- An uncompressed 32-bit header with the width bytes 00 80 and the height bytes 00 80. -/
def tgaMin32 : List Byte := [0, 0, 2, 0, 0, 0, 0, 0, 0, 0, 0, 0, 0, 128, 0, 128, 32, 0]

/-- A 1x1 24-bit uncompressed file with idLength 255: the 18 header bytes, an identification
field of 255 bytes that starts with 7, 8, and the pixel bytes (1, 2, 3). -/
def tgaId255Full : List Byte :=
  [255, 0, 2, 0, 0, 0, 0, 0, 0, 0, 0, 0, 1, 0, 1, 0, 24, 0] ++
    (7 :: 8 :: List.replicate 253 0) ++ [1, 2, 3]

/-! ## Offsets used in the statements -/

/-- The offset read for the byte at offset `j` of a run of pixels of `c` bytes each: bytes 0
and 2 of each pixel change places. -/
def swapped (c j : Int) : Int :=
  if j % c = 0 then j + 2 else if j % c = 2 then j - 2 else j

/-- Following the words of the claim on raw packets: the RLE stream that encodes the pixel
bytes `px`, `channels` bytes to the pixel, using raw packets only. For each count `n` of
`counts` it holds the control byte `n - 1` (below 128 for `n ≤ 128`) followed by the bytes of
the next `n` pixels. -/
def rawPackets (channels : Nat) : List Nat → List Byte → List Byte
  | [], _ => []
  | n :: counts, px =>
    toUChar (n - 1) ::
      (px.take (channels * n) ++ rawPackets channels counts (px.drop (channels * n)))

/-- The five `float` members of `Scrollbar` that its setters assign. A `float` is taken as an
exact number, a rational. -/
structure Scrollbar where
  d_documentSize : ℚ
  d_pageSize : ℚ
  d_stepSize : ℚ
  d_overlapSize : ℚ
  d_position : ℚ
deriving DecidableEq

/-- Modelled from the spec: the macro `ceguimax` of `CEGUIBase.h`, which is not among the sources;
the greater of its two arguments, as the comment at its use says ("must be at least 0"). -/
def ceguimax (a b : ℚ) : ℚ := if a < b then b else a

/-- `Scrollbar::setScrollPosition`: the members after the call. The calls of `updateThumb` and
`onScrollPositionChanged` go to the window renderer and to the event subscribers, which are not
among the sources and do not assign the members here; when `updateThumb` throws for want of a
window renderer, the assignment to `d_position` has already been made. -/
def Scrollbar.setScrollPosition (s : Scrollbar) (position : ℚ) : Scrollbar :=
  let max_pos := ceguimax (s.d_documentSize - s.d_pageSize) 0
  { s with d_position :=
      if position ≥ 0 then (if position ≤ max_pos then position else max_pos) else 0 }

/-- `Scrollbar::Scrollbar`: the members set by the constructor. -/
def Scrollbar.initial : Scrollbar :=
  { d_documentSize := 1, d_pageSize := 0, d_stepSize := 1, d_overlapSize := 0, d_position := 0 }

/-- `Scrollbar::setDocumentSize`: the members after the call. The calls of `updateThumb` and
`onScrollConfigChanged` go to the window renderer and to the event subscribers, which are not
among the sources and do not assign the members here. -/
def Scrollbar.setDocumentSize (s : Scrollbar) (document_size : ℚ) : Scrollbar :=
  if s.d_documentSize ≠ document_size then { s with d_documentSize := document_size } else s

/-- `Scrollbar::setPageSize`: the members after the call. -/
def Scrollbar.setPageSize (s : Scrollbar) (page_size : ℚ) : Scrollbar :=
  if s.d_pageSize ≠ page_size then { s with d_pageSize := page_size } else s

/-- `Scrollbar::setStepSize`: the members after the call. -/
def Scrollbar.setStepSize (s : Scrollbar) (step_size : ℚ) : Scrollbar :=
  if s.d_stepSize ≠ step_size then { s with d_stepSize := step_size } else s

/-- `Scrollbar::setOverlapSize`: the members after the call. -/
def Scrollbar.setOverlapSize (s : Scrollbar) (overlap_size : ℚ) : Scrollbar :=
  if s.d_overlapSize ≠ overlap_size then { s with d_overlapSize := overlap_size } else s

/-- A call of one of the five setters, with its argument. -/
inductive ScrollbarCall where
  | setDocumentSize (document_size : ℚ)
  | setPageSize (page_size : ℚ)
  | setStepSize (step_size : ℚ)
  | setOverlapSize (overlap_size : ℚ)
  | setScrollPosition (position : ℚ)

/-- The members after one call. -/
def Scrollbar.call (s : Scrollbar) : ScrollbarCall → Scrollbar
  | .setDocumentSize v => s.setDocumentSize v
  | .setPageSize v => s.setPageSize v
  | .setStepSize v => s.setStepSize v
  | .setOverlapSize v => s.setOverlapSize v
  | .setScrollPosition v => s.setScrollPosition v

/-- The members after a sequence of calls, made in order. -/
def Scrollbar.calls (s : Scrollbar) (cs : List ScrollbarCall) : Scrollbar :=
  cs.foldl Scrollbar.call s

/-- A call that assigns neither `d_documentSize` nor `d_pageSize`. -/
def ScrollbarCall.keepsRange : ScrollbarCall → Bool
  | .setDocumentSize _ => false
  | .setPageSize _ => false
  | _ => true

/-! ## Counting the packets of the RLE loop -/

/-- The number of iterations that the loop `while(i < width*height)` makes from the state `s`
before it stops, with `fuel` bounding it as in `rleLoop`; `none` when a read leaves a block. -/
def rlePackets (buffer : List Byte) (bits channels pixels : Int) : Nat → RleState → Option Nat
  | 0, _ => some 0
  | fuel + 1, s =>
    if s.i < pixels then
      match rlePacket buffer bits channels s with
      | none => none
      | some s' =>
        match rlePackets buffer bits channels pixels fuel s' with
        | none => none
        | some k => some (k + 1)
    else some 0

/-! ## The stores of the uncompressed branches of loadTGA -/

/-- `memcpy` with the indices of the destination it stores to appended to `log`; the block is
`none` once a read has left the source. -/
def memcpyW (src : List Byte) :
    Nat → Int → Int → List Byte → List Int → List Int × Option (List Byte)
  | 0, _, _, dst, log => (log, some dst)
  | n + 1, d, s, dst, log =>
    match peek src s with
    | none => (log, none)
    | some v => memcpyW src n (d + 1) (s + 1) (poke dst d v) (log ++ [d])

/-- `swapLine` with the indices it stores to, `pLine + i` and `pLine + (i + 2)` in each
iteration, appended to `log`. -/
def swapLineW (pLine stride channels : Int) :
    Nat → Int → List Byte → List Int → List Int × Option (List Byte)
  | 0, _, data, log => (log, some data)
  | fuel + 1, i, data, log =>
    if i < stride then
      match peek data (pLine + i), peek data (pLine + (i + 2)) with
      | some temp, some v =>
        swapLineW pLine stride channels fuel (i + channels)
          (poke (poke data (pLine + i) v) (pLine + (i + 2)) temp)
          (log ++ [pLine + i, pLine + (i + 2)])
      | _, _ => (log, none)
    else (log, some data)

/-- `loadLines` with the indices it stores to appended to `log`. -/
def loadLinesW (buffer : List Byte) (stride channels : Int) :
    Nat → Int → Int → List Byte → List Int → List Int × Option (List Byte)
  | 0, _, _, data, log => (log, some data)
  | n + 1, y, cur, data, log =>
    match memcpyW buffer (toSizeT stride) (stride * y) cur data log with
    | (log1, none) => (log1, none)
    | (log1, some data1) =>
      match swapLineW (stride * y) stride channels stride.toNat 0 data1 log1 with
      | (log2, none) => (log2, none)
      | (log2, some data2) =>
        loadLinesW buffer stride channels n (y + 1) (cur + stride) data2 log2

/-- `load16` with the indices it stores to, `i * 3 + 0`, `i * 3 + 1` and `i * 3 + 2` for each
pixel, appended to `log`. -/
def load16W (buffer : List Byte) :
    Nat → Int → Int → List Byte → List Int → List Int × Option (List Byte)
  | 0, _, _, data, log => (log, some data)
  | n + 1, i, cur, data, log =>
    match peek buffer cur, peek buffer (cur + 1) with
    | some lo, some hi =>
      let pixels : Nat := lo.val + 256 * hi.val
      let b := toUChar ((pixels &&& 0x1f) <<< 3)
      let g := toUChar (((pixels >>> 5) &&& 0x1f) <<< 3)
      let r := toUChar (((pixels >>> 10) &&& 0x1f) <<< 3)
      load16W buffer n (i + 1) (cur + 2)
        (poke (poke (poke data (i * 3 + 0) r) (i * 3 + 1) g) (i * 3 + 2) b)
        (log ++ [i * 3 + 0, i * 3 + 1, i * 3 + 2])
    | _, _ => (log, none)

/-- The branch `if(imageType != TGA_RLE)` of `loadTGA` on the header `h`, with the list of the
indices of `pImageData->data` it stores to, in order. -/
def loadUncompressedW (junk : Nat → Byte) (buffer : List Byte) (h : Header) :
    List Int × Loaded :=
  if h.bits = 24 ∨ h.bits = 32 then
    match newBytes junk (toInt (h.bits.tdiv 8 * h.width * h.height)) with
    | none => ([], .badAlloc)
    | some data =>
      match loadLinesW buffer (h.bits.tdiv 8 * h.width) (h.bits.tdiv 8) h.height.toNat 0
          (17 + (h.length + 1)) data [] with
      | (log, none) => (log, .outOfBounds)
      | (log, some data') =>
        (log, .image { channels := h.bits.tdiv 8, sizeX := h.width, sizeY := h.height,
                       data := data' })
  else if h.bits = 16 then
    match newBytes junk (toInt (3 * h.width * h.height)) with
    | none => ([], .badAlloc)
    | some data =>
      match load16W buffer (h.width * h.height).toNat 0 (17 + (h.length + 1)) data [] with
      | (log, none) => (log, .outOfBounds)
      | (log, some data') =>
        (log, .image { channels := 3, sizeX := h.width, sizeY := h.height, data := data' })
  else ([], .null)

/-! ## Reads and writes of a block -/

theorem length_poke (p : List Byte) (i : Int) (v : Byte) : (poke p i v).length = p.length := by
  unfold poke
  split <;> simp

theorem peek_poke (p : List Byte) (i j : Int) (v : Byte) :
    peek (poke p i v) j = if i = j ∧ 0 ≤ i ∧ i < p.length then some v else peek p j := by
  unfold peek poke
  by_cases hi : 0 ≤ i
  · by_cases hj : 0 ≤ j
    · simp only [hi, hj, if_true, List.getElem?_set]
      by_cases hij : i = j
      · subst hij
        by_cases hl : i.toNat < p.length
        · have : i < (p.length : Int) := by omega
          simp [hl, this]
        · have : ¬ i < (p.length : Int) := by omega
          have hl2 : p.length ≤ i.toNat := by omega
          simp [hl, this, List.getElem?_eq_none hl2]
      · have : i.toNat ≠ j.toNat := by omega
        simp [hij, this]
    · have : i ≠ j := by omega
      simp [hi, hj, this]
  · simp [hi]

theorem peek_some_of_lt (p : List Byte) (i : Int) (h0 : 0 ≤ i) (h1 : i < p.length) :
    ∃ v, peek p i = some v := by
  unfold peek
  have : i.toNat < p.length := by omega
  simp [h0, List.getElem?_eq_getElem this]

theorem peek_eq_none (p : List Byte) (i : Int) (h : i < 0 ∨ (p.length : Int) ≤ i) :
    peek p i = none := by
  unfold peek
  by_cases h0 : 0 ≤ i
  · have : p.length ≤ i.toNat := by omega
    simp [h0, List.getElem?_eq_none this]
  · simp [h0]

theorem peek_natCast (p : List Byte) (k : Nat) : peek p (k : Int) = p[k]? := by
  simp [peek]

/-- Two blocks with the same reads at every offset are equal. -/
theorem ext_peek (p q : List Byte) (h : ∀ j : Int, peek p j = peek q j) : p = q := by
  apply List.ext_getElem?
  intro n
  have := h (n : Int)
  simpa [peek_natCast] using this

theorem toSizeT_of_nonneg (n : Int) (h : 0 ≤ n) : toSizeT n = n.toNat := by
  unfold toSizeT
  rw [if_pos h]

theorem toInt_of_fits (x : Int) (h0 : -2147483648 ≤ x) (h1 : x ≤ 2147483647) :
    toInt x = x := by
  unfold toInt
  omega

theorem toInt_range (x : Int) : -2147483648 ≤ toInt x ∧ toInt x ≤ 2147483647 := by
  unfold toInt
  omega

/-- An `int` product from 2^31 up to 2^32 - 1 is negative as an `int`. -/
theorem toInt_neg (x : Int) (h0 : 2147483648 ≤ x) (h1 : x < 4294967296) : toInt x < 0 := by
  unfold toInt
  omega

theorem toShort_range (lo hi : Byte) : -32768 ≤ toShort lo hi ∧ toShort lo hi ≤ 32767 := by
  unfold toShort
  have h1 := lo.isLt
  have h2 := hi.isLt
  split <;> omega

theorem toGLbyte_range (b : Byte) : -128 ≤ toGLbyte b ∧ toGLbyte b ≤ 127 := by
  unfold toGLbyte
  have h1 := b.isLt
  split <;> omega

theorem peek_append_left (p q : List Byte) (i : Int) (h : i < p.length) :
    peek (p ++ q) i = peek p i := by
  unfold peek
  split
  · rw [List.getElem?_append_left (by omega)]
  · rfl

/-! ## The vertical flip -/

/-- The column loop swaps the `pitch` bytes at `src` with the `pitch` bytes at `dst`. -/
theorem flipColBits_spec (src dst pitch : Int) (n : Nat) (c0 : Int) (data : List Byte)
    (hsrc : 0 ≤ src) (hc0 : 0 ≤ c0) (hn : c0 + n = pitch) (hdis : src + pitch ≤ dst)
    (hlen : dst + pitch ≤ data.length) :
    ∃ data', flipColBits src dst n c0 data = some data' ∧ data'.length = data.length ∧
      ∀ j : Int, peek data' j =
        if src + c0 ≤ j ∧ j < src + pitch then peek data (j - src + dst)
        else if dst + c0 ≤ j ∧ j < dst + pitch then peek data (j - dst + src)
        else peek data j := by
  induction n generalizing c0 data with
  | zero =>
    refine ⟨data, rfl, rfl, ?_⟩
    intro j
    have h1 : ¬ (src + c0 ≤ j ∧ j < src + pitch) := by simp at hn; omega
    have h2 : ¬ (dst + c0 ≤ j ∧ j < dst + pitch) := by simp at hn; omega
    simp [h1, h2]
  | succ n ih =>
    push_cast at hn
    obtain ⟨tmp, htmp⟩ := peek_some_of_lt data (dst + c0) (by omega) (by omega)
    obtain ⟨s, hs⟩ := peek_some_of_lt data (src + c0) (by omega) (by omega)
    obtain ⟨data', h1, h2, h3⟩ := ih (c0 + 1) (poke (poke data (dst + c0) s) (src + c0) tmp)
      (by omega) (by omega) (by simp only [length_poke]; omega)
    refine ⟨data', ?_, ?_, ?_⟩
    · simp only [flipColBits, htmp, hs]
      exact h1
    · simpa only [length_poke] using h2
    · intro j
      rw [h3 j]
      simp only [peek_poke, length_poke]
      split_ifs <;>
        first
        | rfl
        | omega
        | (rw [← htmp]; congr 1; omega)
        | (rw [← hs]; congr 1; omega)

/-- An offset `r * p + b` with `0 ≤ b < p` lies in line `l` exactly when `r = l`. -/
theorem row_mem_iff (p b r l : Int) (hb0 : 0 ≤ b) (hb : b < p) :
    (l * p ≤ r * p + b ∧ r * p + b < l * p + p) ↔ r = l := by
  constructor
  · rintro ⟨h1, h2⟩
    by_contra hne
    rcases lt_or_gt_of_ne hne with h | h
    · have : (r + 1) * p ≤ l * p := Int.mul_le_mul_of_nonneg_right (by omega) (by omega)
      have e : (r + 1) * p = r * p + p := by ring
      omega
    · have : (l + 1) * p ≤ r * p := Int.mul_le_mul_of_nonneg_right (by omega) (by omega)
      have e : (l + 1) * p = l * p + p := by ring
      omega
  · rintro rfl
    omega

/-- The line loop: lines `line .. line + n - 1` are exchanged with their mirror lines. -/
theorem flipLines_spec (sizeY pitch : Int) (n : Nat) (line : Int) (data : List Byte)
    (hp : 0 ≤ pitch) (hline : 0 ≤ line) (hn : 2 * (line + n) ≤ sizeY)
    (hlen : (data.length : Int) = pitch * sizeY) :
    ∃ data', flipLines sizeY pitch n line data = some data' ∧ data'.length = data.length ∧
      ∀ r b : Int, 0 ≤ b → b < pitch →
        peek data' (r * pitch + b) =
          if (line ≤ r ∧ r < line + n) ∨ (sizeY - line - n ≤ r ∧ r < sizeY - line)
          then peek data ((sizeY - 1 - r) * pitch + b) else peek data (r * pitch + b) := by
  induction n generalizing line data with
  | zero =>
    refine ⟨data, rfl, rfl, ?_⟩
    intro r b _ _
    have h1 : ¬ ((line ≤ r ∧ r < line + (0 : Nat)) ∨
        (sizeY - line - (0 : Nat) ≤ r ∧ r < sizeY - line)) := by
      push_cast; omega
    rw [if_neg h1]
  | succ n ih =>
    push_cast at hn
    have e1 : (line + 1) * pitch = line * pitch + pitch := by ring
    have e2 : (sizeY - line - 1) * pitch + pitch = (sizeY - line) * pitch := by ring
    have e3 : pitch * sizeY = sizeY * pitch := by ring
    have g1 : (line + 1) * pitch ≤ (sizeY - line - 1) * pitch :=
      Int.mul_le_mul_of_nonneg_right (by omega) hp
    have g2 : (sizeY - line) * pitch ≤ sizeY * pitch :=
      Int.mul_le_mul_of_nonneg_right (by omega) hp
    have g3 : 0 ≤ line * pitch := Int.mul_nonneg hline hp
    obtain ⟨data1, k1, k2, k3⟩ := flipColBits_spec (line * pitch) ((sizeY - line - 1) * pitch)
      pitch pitch.toNat 0 data g3 (le_refl 0) (by omega) (by omega) (by omega)
    obtain ⟨data', h1, h2, h3⟩ := ih (line + 1) data1 (by omega) (by omega) (by omega)
    refine ⟨data', ?_, by omega, ?_⟩
    · simp only [flipLines, k1]
      exact h1
    · intro r b hb0 hb
      rw [h3 r b hb0 hb]
      simp only [k3, add_zero, row_mem_iff pitch b _ _ hb0 hb]
      push_cast
      by_cases c1 : r = line
      · subst c1
        split_ifs <;> first | rfl | omega | (congr 1; ring)
      · by_cases c2 : r = sizeY - line - 1
        · subst c2
          split_ifs <;> first | rfl | omega | (congr 1; ring)
        · split_ifs <;> first | rfl | omega

/-- The quotient `a / 2` of C++, which rounds towards zero. -/
theorem tdiv_two_cases (a : Int) :
    (0 ≤ a ∧ a.tdiv 2 = a / 2) ∨ (a < 0 ∧ a.tdiv 2 ≤ 0) := by
  by_cases h : 0 ≤ a
  · exact Or.inl ⟨h, Int.tdiv_eq_ediv h (by decide)⟩
  · right
    refine ⟨by omega, ?_⟩
    have h1 : 0 ≤ (-a).tdiv 2 := Int.tdiv_nonneg (by omega) (by decide)
    have h2 : (-a).tdiv 2 = -(a.tdiv 2) := Int.neg_tdiv a 2
    omega

/-- The flip of an image whose buffer holds `sizeY` lines of `sizeX * channels` bytes: it
succeeds, keeps the length, and puts line `sizeY - 1 - r` in the place of line `r`. -/
theorem flipImageTGA_spec (img : ImageTGA)
    (hlen : (img.data.length : Int) = img.sizeX * img.channels * img.sizeY) :
    ∃ data', flipImageTGA img = some { img with data := data' } ∧
      data'.length = img.data.length ∧
      ∀ r b : Int, 0 ≤ r → r < img.sizeY → 0 ≤ b → b < img.sizeX * img.channels →
        peek data' (r * (img.sizeX * img.channels) + b) =
          peek img.data ((img.sizeY - 1 - r) * (img.sizeX * img.channels) + b) := by
  rcases tdiv_two_cases img.sizeY with ⟨h0, hd⟩ | ⟨h0, hd⟩
  · by_cases hp : 0 ≤ img.sizeX * img.channels
    · obtain ⟨data', h1, h2, h3⟩ := flipLines_spec img.sizeY (img.sizeX * img.channels)
        (img.sizeY.tdiv 2).toNat 0 img.data hp (le_refl 0) (by rw [hd]; omega) hlen
      refine ⟨data', ?_, h2, ?_⟩
      · simp only [flipImageTGA, h1]
      · intro r b hr0 hr hb0 hb
        rw [h3 r b hb0 hb, hd]
        split_ifs with c
        · rfl
        · have e : img.sizeY - 1 - r = r := by omega
          rw [e]
    · have hs : img.sizeY = 0 := by
        by_contra hne
        have h1 : 1 ≤ img.sizeY := by omega
        have h2 : (img.sizeX * img.channels) * img.sizeY ≤ (-1) * img.sizeY :=
          Int.mul_le_mul_of_nonneg_right (by omega) h0
        omega
      refine ⟨img.data, ?_, rfl, ?_⟩
      · simp [flipImageTGA, hs, flipLines]
      · intro r b hr0 hr
        omega
  · have hz : (img.sizeY.tdiv 2).toNat = 0 := by omega
    refine ⟨img.data, ?_, rfl, ?_⟩
    · simp [flipImageTGA, hz, flipLines]
    · intro r b hr0 hr
      omega

/-! ## The uncompressed 24- and 32-bit branch -/

theorem memcpy_spec (src : List Byte) (n : Nat) (d s : Int) (dst : List Byte)
    (hd : 0 ≤ d) (hs : 0 ≤ s) (hsrc : s + n ≤ src.length) (hdst : d + n ≤ dst.length) :
    ∃ dst', memcpy src n d s dst = some dst' ∧ dst'.length = dst.length ∧
      ∀ j : Int, peek dst' j =
        if d ≤ j ∧ j < d + n then peek src (j - d + s) else peek dst j := by
  induction n generalizing d s dst with
  | zero =>
    refine ⟨dst, rfl, rfl, ?_⟩
    intro j
    have h1 : ¬ (d ≤ j ∧ j < d + (0 : Nat)) := by push_cast; omega
    rw [if_neg h1]
  | succ n ih =>
    push_cast at hsrc hdst
    obtain ⟨v, hv⟩ := peek_some_of_lt src s hs (by omega)
    obtain ⟨dst', h1, h2, h3⟩ := ih (d + 1) (s + 1) (poke dst d v) (by omega) (by omega)
      (by omega) (by rw [length_poke]; omega)
    refine ⟨dst', ?_, ?_, ?_⟩
    · simp only [memcpy, hv]
      exact h1
    · rw [h2, length_poke]
    · intro j
      rw [h3 j]
      simp only [peek_poke]
      push_cast
      split_ifs <;>
        first
        | rfl
        | omega
        | (rw [← hv]; congr 1; omega)
        | (congr 1; omega)

theorem swapLine_spec (P S c : Int) (fuel : Nat) (i : Int) (data : List Byte)
    (hc : c = 3 ∨ c = 4) (hP : 0 ≤ P) (hi : 0 ≤ i) (hic : i % c = 0) (hSc : S % c = 0)
    (hfuel : S - i ≤ c * fuel) (hlen : P + S ≤ data.length) :
    ∃ data', swapLine P S c fuel i data = some data' ∧ data'.length = data.length ∧
      ∀ j : Int, peek data' j =
        if P + i ≤ j ∧ j < P + S then peek data (P + swapped c (j - P)) else peek data j := by
  induction fuel generalizing i data with
  | zero =>
    refine ⟨data, rfl, rfl, ?_⟩
    intro j
    have h1 : ¬ (P + i ≤ j ∧ j < P + S) := by push_cast at hfuel; omega
    rw [if_neg h1]
  | succ fuel ih =>
    push_cast at hfuel
    by_cases hlt : i < S
    · have hstep : i + c ≤ S := by rcases hc with rfl | rfl <;> omega
      have hc3 : 3 ≤ c := by rcases hc with rfl | rfl <;> omega
      obtain ⟨temp, htemp⟩ := peek_some_of_lt data (P + i) (by omega) (by omega)
      obtain ⟨v, hv⟩ := peek_some_of_lt data (P + (i + 2)) (by omega) (by omega)
      obtain ⟨data', h1, h2, h3⟩ := ih (i + c)
        (poke (poke data (P + i) v) (P + (i + 2)) temp) (by omega)
        (by rcases hc with rfl | rfl <;> omega)
        (by rcases hc with rfl | rfl <;> omega)
        (by simp only [length_poke]; omega)
      refine ⟨data', ?_, ?_, ?_⟩
      · simp only [swapLine, hlt, if_true, htemp, hv]
        exact h1
      · rw [h2, length_poke, length_poke]
      · intro j
        rw [h3 j]
        simp only [peek_poke, length_poke, swapped]
        rcases hc with rfl | rfl <;>
        split_ifs <;>
          first
          | rfl
          | omega
          | (rw [← hv]; congr 1; omega)
          | (rw [← htemp]; congr 1; omega)
          | (congr 1; omega)
    · refine ⟨data, ?_, rfl, ?_⟩
      · simp only [swapLine, hlt, if_false]
      · intro j
        have h1 : ¬ (P + i ≤ j ∧ j < P + S) := by omega
        rw [if_neg h1]

/-- One line of the 24/32-bit branch: the copy of `S` bytes to offset `P` and the swap. -/
theorem loadRow_spec (buffer : List Byte) (P S c cur : Int) (data : List Byte)
    (hc : c = 3 ∨ c = 4) (hP : 0 ≤ P) (hS : 0 ≤ S) (hSc : S % c = 0) (hcur : 0 ≤ cur)
    (hsrc : cur + S ≤ buffer.length) (hdst : P + S ≤ data.length) :
    ∃ data1 data2, memcpy buffer S.toNat P cur data = some data1 ∧
      swapLine P S c S.toNat 0 data1 = some data2 ∧ data2.length = data.length ∧
      ∀ j : Int, peek data2 j =
        if P ≤ j ∧ j < P + S then peek buffer (cur + swapped c (j - P)) else peek data j := by
  obtain ⟨data1, m1, m2, m3⟩ := memcpy_spec buffer S.toNat P cur data hP hcur
    (by omega) (by omega)
  obtain ⟨data2, s1, s2, s3⟩ := swapLine_spec P S c S.toNat 0 data1 hc hP (le_refl 0)
    (by simp) hSc (by rcases hc with rfl | rfl <;> omega) (by omega)
  refine ⟨data1, data2, m1, s1, by omega, ?_⟩
  intro j
  rw [s3 j]
  simp only [m3, swapped]
  rcases hc with rfl | rfl <;>
  split_ifs <;>
    first
    | rfl
    | omega
    | (congr 1; omega)

theorem loadLines_spec (buffer : List Byte) (S c : Int) (n : Nat) (y cur : Int)
    (data : List Byte) (hc : c = 3 ∨ c = 4) (hS : 0 ≤ S) (hSc : S % c = 0) (hy : 0 ≤ y)
    (hcur : 0 ≤ cur) (hsrc : cur + S * n ≤ buffer.length)
    (hdst : S * y + S * n ≤ data.length) :
    ∃ data', loadLines buffer S c n y cur data = some data' ∧ data'.length = data.length ∧
      ∀ j : Int, peek data' j =
        if S * y ≤ j ∧ j < S * y + S * n then peek buffer (cur + swapped c (j - S * y))
        else peek data j := by
  induction n generalizing y cur data with
  | zero =>
    refine ⟨data, rfl, rfl, ?_⟩
    intro j
    have h1 : ¬ (S * y ≤ j ∧ j < S * y + S * ((0 : Nat) : Int)) := by push_cast; omega
    rw [if_neg h1]
  | succ n ih =>
    push_cast at hsrc hdst
    have e1 : S * ((n : Int) + 1) = S * n + S := by ring
    have e2 : S * (y + 1) = S * y + S := by ring
    have g1 : 0 ≤ S * (n : Int) := Int.mul_nonneg hS (by omega)
    have g2 : 0 ≤ S * y := Int.mul_nonneg hS hy
    obtain ⟨data1, data2, r1, r2, r3, r4⟩ := loadRow_spec buffer (S * y) S c cur data hc g2 hS
      hSc hcur (by omega) (by omega)
    obtain ⟨data', h1, h2, h3⟩ := ih (y + 1) (cur + S) data2 (by omega) (by omega) (by omega)
      (by omega)
    refine ⟨data', ?_, by omega, ?_⟩
    · simp only [loadLines, toSizeT_of_nonneg S hS, r1, r2]
      exact h1
    · intro j
      rw [h3 j]
      simp only [r4, swapped]
      push_cast
      rw [e1, e2]
      rcases hc with rfl | rfl <;>
      split_ifs <;>
        first
        | rfl
        | omega
        | (congr 1; omega)

theorem newBytes_spec (junk : Nat → Byte) (n : Int) (h : 0 ≤ n) :
    ∃ data, newBytes junk n = some data ∧ (data.length : Int) = n := by
  refine ⟨(List.range n.toNat).map junk, by simp [newBytes, h], ?_⟩
  simp only [List.length_map, List.length_range]
  omega

theorem newBytes_length (junk : Nat → Byte) (n : Int) (data : List Byte)
    (h : newBytes junk n = some data) : (data.length : Int) = n := by
  unfold newBytes at h
  split at h
  · simp only [Option.some.injEq] at h
    subst h
    simp only [List.length_map, List.length_range]
    omega
  · exact Option.noConfusion h

/-! ## The uncompressed 16-bit branch -/

/-- A 5-bit field moved up by three bits fits a byte: the cast to `unsigned char` keeps it. -/
theorem toUChar_field (x : Nat) : (toUChar ((x &&& 0x1f) <<< 3)).val = (x &&& 0x1f) <<< 3 := by
  simp only [toUChar]
  have h : x &&& 0x1f ≤ 0x1f := Nat.and_le_right
  rw [Nat.shiftLeft_eq]
  omega

/-- The pixel loop of the 16-bit branch: pixels `i .. i + n - 1` receive the three fields of
their source words, the other bytes of the block are left as they are. -/
theorem load16_spec (buffer : List Byte) (n : Nat) (i cur : Int) (data : List Byte)
    (hi : 0 ≤ i) (hcur : 0 ≤ cur) (hsrc : cur + 2 * n ≤ buffer.length)
    (hdst : (i + n) * 3 ≤ data.length) :
    ∃ data', load16 buffer n i cur data = some data' ∧ data'.length = data.length ∧
      (∀ j : Int, j < i * 3 ∨ (i + n) * 3 ≤ j → peek data' j = peek data j) ∧
      ∀ k : Int, i ≤ k → k < i + n →
        ∃ lo hi : Byte, peek buffer (cur + 2 * (k - i)) = some lo ∧
          peek buffer (cur + 2 * (k - i) + 1) = some hi ∧
          peek data' (k * 3 + 0) =
            some (toUChar ((((lo.val + 256 * hi.val) >>> 10) &&& 0x1f) <<< 3)) ∧
          peek data' (k * 3 + 1) =
            some (toUChar ((((lo.val + 256 * hi.val) >>> 5) &&& 0x1f) <<< 3)) ∧
          peek data' (k * 3 + 2) = some (toUChar (((lo.val + 256 * hi.val) &&& 0x1f) <<< 3)) := by
  induction n generalizing i cur data with
  | zero =>
    refine ⟨data, rfl, rfl, fun _ _ => rfl, ?_⟩
    intro k h1 h2
    push_cast at h2
    omega
  | succ n ih =>
    push_cast at hsrc hdst
    obtain ⟨lo, hlo⟩ := peek_some_of_lt buffer cur hcur (by omega)
    obtain ⟨hi', hhi⟩ := peek_some_of_lt buffer (cur + 1) (by omega) (by omega)
    obtain ⟨data', h1, h2, h3, h4⟩ := ih (i + 1) (cur + 2)
      (poke (poke (poke data (i * 3 + 0)
        (toUChar ((((lo.val + 256 * hi'.val) >>> 10) &&& 0x1f) <<< 3))) (i * 3 + 1)
        (toUChar ((((lo.val + 256 * hi'.val) >>> 5) &&& 0x1f) <<< 3))) (i * 3 + 2)
        (toUChar (((lo.val + 256 * hi'.val) &&& 0x1f) <<< 3)))
      (by omega) (by omega) (by omega) (by simp only [length_poke]; omega)
    refine ⟨data', ?_, ?_, ?_, ?_⟩
    · simp only [load16, hlo, hhi]
      exact h1
    · simpa only [length_poke] using h2
    · intro j hj
      rw [h3 j (by omega)]
      simp only [peek_poke, length_poke]
      split_ifs <;> first | rfl | omega
    · intro k hk1 hk2
      by_cases hk : k = i
      · subst hk
        refine ⟨lo, hi', ?_, ?_, ?_, ?_, ?_⟩
        · rw [← hlo]; congr 1; omega
        · rw [← hhi]; congr 1; omega
        · rw [h3 (k * 3 + 0) (by omega)]
          simp only [peek_poke, length_poke, true_and]
          split_ifs <;> first | rfl | omega
        · rw [h3 (k * 3 + 1) (by omega)]
          simp only [peek_poke, length_poke, true_and]
          split_ifs <;> first | rfl | omega
        · rw [h3 (k * 3 + 2) (by omega)]
          simp only [peek_poke, length_poke, true_and]
          split_ifs <;> first | rfl | omega
      · obtain ⟨lo2, hi2, q1, q2, q3, q4, q5⟩ := h4 k (by omega) (by push_cast at hk2; omega)
        refine ⟨lo2, hi2, ?_, ?_, q3, q4, q5⟩
        · rw [← q1]; congr 1; omega
        · rw [← q2]; congr 1; omega


/-! ## The run-length-encoded branch -/

theorem peek_cons (v : Byte) (vs : List Byte) (j : Int) :
    peek (v :: vs) j = if j = 0 then some v else peek vs (j - 1) := by
  unfold peek
  by_cases h0 : j = 0
  · subst h0
    simp
  · by_cases h1 : 0 ≤ j
    · have e : j.toNat = (j - 1).toNat + 1 := by omega
      have h2 : 0 ≤ j - 1 := by omega
      simp only [h0, h1, h2, if_true, if_false]
      rw [e, List.getElem?_cons_succ]
    · have h2 : ¬ 0 ≤ j - 1 := by omega
      simp [h0, h1, h2]

theorem readBytes_spec (src : List Byte) (n : Nat) (s : Int) (hs : 0 ≤ s)
    (hsrc : s + n ≤ src.length) :
    ∃ vs, readBytes src n s = some vs ∧ vs.length = n ∧
      ∀ t : Int, 0 ≤ t → t < n → peek vs t = peek src (s + t) := by
  induction n generalizing s with
  | zero =>
    refine ⟨[], rfl, rfl, ?_⟩
    intro t h0 h1
    push_cast at h1
    omega
  | succ n ih =>
    push_cast at hsrc
    obtain ⟨v, hv⟩ := peek_some_of_lt src s hs (by omega)
    obtain ⟨vs, h1, h2, h3⟩ := ih (s + 1) (by omega) (by omega)
    refine ⟨v :: vs, ?_, by simp [h2], ?_⟩
    · simp only [readBytes, hv, h1]
    · intro t h0 ht
      push_cast at ht
      rw [peek_cons]
      by_cases hz : t = 0
      · subst hz
        rw [Int.add_zero, hv, if_pos rfl]
      · rw [if_neg hz, h3 (t - 1) (by omega) (by omega)]
        congr 1
        omega

/-- The stores of one pixel: the `c` bytes from `colorsRead` that lie in the block receive the
bytes of `pColors`, bytes 0 and 2 exchanged. -/
theorem storeColors_spec (bits c : Int) (pColors : List Byte) (cr : Int) (data : List Byte)
    (hb : bits = 24 ∧ c = 3 ∨ bits = 32 ∧ c = 4) (hp : (pColors.length : Int) = c) :
    ∃ data', storeColors bits pColors cr data = some data' ∧ data'.length = data.length ∧
      ∀ j : Int, peek data' j =
        if cr ≤ j ∧ j < cr + c ∧ 0 ≤ j ∧ j < data.length then peek pColors (swapped c (j - cr))
        else peek data j := by
  rcases hb with ⟨rfl, rfl⟩ | ⟨rfl, rfl⟩
  · obtain ⟨c0, h0⟩ := peek_some_of_lt pColors 0 (by omega) (by omega)
    obtain ⟨c1, h1⟩ := peek_some_of_lt pColors 1 (by omega) (by omega)
    obtain ⟨c2, h2⟩ := peek_some_of_lt pColors 2 (by omega) (by omega)
    refine ⟨_, by simp only [storeColors, h0, h1, h2]; rfl, by simp only [length_poke], ?_⟩
    intro j
    simp only [peek_poke, length_poke, swapped]
    split_ifs <;>
      first
      | rfl
      | omega
      | (rw [← h0]; congr 1; omega)
      | (rw [← h1]; congr 1; omega)
      | (rw [← h2]; congr 1; omega)
  · obtain ⟨c0, h0⟩ := peek_some_of_lt pColors 0 (by omega) (by omega)
    obtain ⟨c1, h1⟩ := peek_some_of_lt pColors 1 (by omega) (by omega)
    obtain ⟨c2, h2⟩ := peek_some_of_lt pColors 2 (by omega) (by omega)
    obtain ⟨c3, h3⟩ := peek_some_of_lt pColors 3 (by omega) (by omega)
    refine ⟨_, by simp only [storeColors, h0, h1, h2, h3]; rfl, by simp only [length_poke], ?_⟩
    intro j
    simp only [peek_poke, length_poke, swapped]
    split_ifs <;>
      first
      | rfl
      | omega
      | (rw [← h0]; congr 1; omega)
      | (rw [← h1]; congr 1; omega)
      | (rw [← h2]; congr 1; omega)
      | (rw [← h3]; congr 1; omega)

/-- The literal pixels of a packet: `n` pixels are read from the input at `cur` and stored from
`colorsRead` on, bytes 0 and 2 of each exchanged. -/
theorem rleLiteral_spec (buffer : List Byte) (bits c : Int) (n : Nat) (s : RleState)
    (hb : bits = 24 ∧ c = 3 ∨ bits = 32 ∧ c = 4) (hcur : 0 ≤ s.cur)
    (hsrc : s.cur + c * n ≤ buffer.length) :
    ∃ s', rleLiteral buffer bits c n s = some s' ∧ s'.cur = s.cur + c * n ∧ s'.i = s.i + n ∧
      s'.colorsRead = s.colorsRead + c * n ∧ s'.data.length = s.data.length ∧
      ∀ j : Int, peek s'.data j =
        if s.colorsRead ≤ j ∧ j < s.colorsRead + c * n ∧ 0 ≤ j ∧ j < s.data.length
        then peek buffer (s.cur + swapped c (j - s.colorsRead)) else peek s.data j := by
  have hc : c = 3 ∨ c = 4 := by rcases hb with ⟨_, e⟩ | ⟨_, e⟩ <;> simp [e]
  induction n generalizing s with
  | zero =>
    refine ⟨s, rfl, by simp, by simp, by simp, rfl, ?_⟩
    intro j
    have h1 : ¬ (s.colorsRead ≤ j ∧ j < s.colorsRead + c * ((0 : Nat) : Int) ∧ 0 ≤ j ∧
        j < s.data.length) := by push_cast; omega
    rw [if_neg h1]
  | succ n ih =>
    push_cast at hsrc
    have e1 : c * ((n : Int) + 1) = c * n + c := by ring
    have g1 : 0 ≤ c * (n : Int) := by rcases hc with rfl | rfl <;> omega
    obtain ⟨pColors, p1, p2, p3⟩ := readBytes_spec buffer c.toNat s.cur hcur
      (by rcases hc with rfl | rfl <;> omega)
    obtain ⟨data1, d1, d2, d3⟩ := storeColors_spec bits c pColors s.colorsRead s.data hb
      (by rcases hc with rfl | rfl <;> omega)
    obtain ⟨s', h1, h2, h3, h4, h5, h6⟩ := ih
      { cur := s.cur + c, i := s.i + 1, colorsRead := s.colorsRead + c, data := data1 }
      (by show 0 ≤ s.cur + c; rcases hc with rfl | rfl <;> omega)
      (by show s.cur + c + c * (n : Int) ≤ _; omega)
    simp only [] at h2 h3 h4 h5 h6
    refine ⟨s', ?_, ?_, ?_, ?_, ?_, ?_⟩
    · simp only [rleLiteral, p1, d1]
      exact h1
    · rw [h2]; push_cast; omega
    · rw [h3]; push_cast; omega
    · rw [h4]; push_cast; omega
    · rw [h5, d2]
    · intro j
      rw [h6 j]
      push_cast
      simp only [d3, d2, e1]
      by_cases hin : s.colorsRead ≤ j ∧ j < s.colorsRead + c ∧ 0 ≤ j ∧ j < s.data.length
      · have q := p3 (swapped c (j - s.colorsRead))
          (by unfold swapped; rcases hc with rfl | rfl <;> split_ifs <;> omega)
          (by unfold swapped; rcases hc with rfl | rfl <;> split_ifs <;> omega)
        rw [if_neg (by omega), if_pos hin, if_pos (by omega), q]
      · rw [if_neg hin]
        unfold swapped
        rcases hc with rfl | rfl <;>
        split_ifs <;>
          first
          | rfl
          | omega
          | (congr 1; omega)

/-- The copies of a run packet: `n` copies of the pixel held in `pColors` are stored from
`colorsRead` on, bytes 0 and 2 exchanged. -/
theorem rleRepeat_spec (bits c : Int) (pColors : List Byte) (n : Nat) (s : RleState)
    (hb : bits = 24 ∧ c = 3 ∨ bits = 32 ∧ c = 4) (hp : (pColors.length : Int) = c) :
    ∃ s', rleRepeat bits c pColors n s = some s' ∧ s'.cur = s.cur ∧ s'.i = s.i + n ∧
      s'.colorsRead = s.colorsRead + c * n ∧ s'.data.length = s.data.length ∧
      ∀ j : Int, peek s'.data j =
        if s.colorsRead ≤ j ∧ j < s.colorsRead + c * n ∧ 0 ≤ j ∧ j < s.data.length
        then peek pColors (swapped c ((j - s.colorsRead) % c)) else peek s.data j := by
  have hc : c = 3 ∨ c = 4 := by rcases hb with ⟨_, e⟩ | ⟨_, e⟩ <;> simp [e]
  induction n generalizing s with
  | zero =>
    refine ⟨s, rfl, rfl, by simp, by simp, rfl, ?_⟩
    intro j
    have h1 : ¬ (s.colorsRead ≤ j ∧ j < s.colorsRead + c * ((0 : Nat) : Int) ∧ 0 ≤ j ∧
        j < s.data.length) := by push_cast; omega
    rw [if_neg h1]
  | succ n ih =>
    have e1 : c * ((n : Int) + 1) = c * n + c := by ring
    have g1 : 0 ≤ c * (n : Int) := by rcases hc with rfl | rfl <;> omega
    obtain ⟨data1, d1, d2, d3⟩ := storeColors_spec bits c pColors s.colorsRead s.data hb hp
    obtain ⟨s', h1, h2, h3, h4, h5, h6⟩ := ih
      { cur := s.cur, i := s.i + 1, colorsRead := s.colorsRead + c, data := data1 }
    simp only [] at h2 h3 h4 h5 h6
    refine ⟨s', ?_, h2, ?_, ?_, ?_, ?_⟩
    · simp only [rleRepeat, d1]
      exact h1
    · rw [h3]; push_cast; omega
    · rw [h4]; push_cast; omega
    · rw [h5, d2]
    · intro j
      rw [h6 j]
      push_cast
      simp only [d3, d2, e1]
      by_cases hin : s.colorsRead ≤ j ∧ j < s.colorsRead + c ∧ 0 ≤ j ∧ j < s.data.length
      · rw [if_neg (by omega), if_pos hin, if_pos (by omega)]
        congr 2
        rcases hc with rfl | rfl <;> omega
      · rw [if_neg hin]
        rcases hc with rfl | rfl <;>
        split_ifs <;>
          first
          | rfl
          | omega
          | (congr 2; omega)

theorem peek_some_bounds (p : List Byte) (i : Int) (v : Byte) (h : peek p i = some v) :
    0 ≤ i ∧ i < p.length := by
  by_contra hne
  rw [peek_eq_none p i (by omega)] at h
  exact Option.noConfusion h

/-- The count `rleID++` of a literal packet does not wrap. -/
theorem literal_count (rleID : Byte) (h : rleID.val < 128) : (rleID + 1).val = rleID.val + 1 := by
  rw [Fin.val_add]
  simp only [Fin.val_one]
  omega

/-- The count `rleID -= 127` of a run packet does not wrap. -/
theorem repeat_count (rleID : Byte) (h : 128 ≤ rleID.val) :
    (rleID - 127).val = rleID.val - 127 := by
  rw [Fin.sub_def]
  have e : (127 : Fin 256).val = 127 := rfl
  simp only [e]
  omega

theorem rleLiteral_i (buffer : List Byte) (bits c : Int) (n : Nat) (s s' : RleState)
    (h : rleLiteral buffer bits c n s = some s') : s'.i = s.i + n := by
  induction n generalizing s with
  | zero =>
    simp only [rleLiteral, Option.some.injEq] at h
    subst h
    simp
  | succ n ih =>
    simp only [rleLiteral] at h
    split at h
    · exact Option.noConfusion h
    · split at h
      · exact Option.noConfusion h
      · have := ih _ h
        simp only [] at this
        rw [this]
        push_cast
        omega

theorem rleRepeat_i (bits c : Int) (pColors : List Byte) (n : Nat) (s s' : RleState)
    (h : rleRepeat bits c pColors n s = some s') : s'.i = s.i + n := by
  induction n generalizing s with
  | zero =>
    simp only [rleRepeat, Option.some.injEq] at h
    subst h
    simp
  | succ n ih =>
    simp only [rleRepeat] at h
    split at h
    · exact Option.noConfusion h
    · have := ih _ h
      simp only [] at this
      rw [this]
      push_cast
      omega

/-- One packet raises the pixel counter by at least 1 and at most 128. -/
theorem rlePacket_i (buffer : List Byte) (bits c : Int) (s s' : RleState)
    (h : rlePacket buffer bits c s = some s') : s.i + 1 ≤ s'.i ∧ s'.i ≤ s.i + 128 := by
  simp only [rlePacket] at h
  split at h
  · exact Option.noConfusion h
  · rename_i rleID _
    split at h
    · rename_i hlt
      have e := rleLiteral_i _ _ _ _ _ _ h
      simp only [] at e
      rw [literal_count rleID hlt] at e
      omega
    · rename_i hge
      split at h
      · exact Option.noConfusion h
      · have e := rleRepeat_i _ _ _ _ _ _ h
        simp only [] at e
        rw [repeat_count rleID (by omega)] at e
        have := rleID.isLt
        omega

/-- The packet loop, started with enough fuel, stops with the pixel counter at or above
`pixels`, and at most 127 above it. -/
theorem rleLoop_i (buffer : List Byte) (bits c pixels : Int) (fuel : Nat) (s s' : RleState)
    (h : rleLoop buffer bits c pixels fuel s = some s') (hf : pixels - s.i ≤ fuel) :
    (s.i < pixels → pixels ≤ s'.i ∧ s'.i ≤ pixels + 127) ∧ (pixels ≤ s.i → s' = s) := by
  induction fuel generalizing s with
  | zero =>
    simp only [rleLoop, Option.some.injEq] at h
    subst h
    push_cast at hf
    exact ⟨fun hlt => by omega, fun _ => rfl⟩
  | succ fuel ih =>
    simp only [rleLoop] at h
    push_cast at hf
    split at h
    · rename_i hlt
      split at h
      · exact Option.noConfusion h
      · rename_i s1 hp
        obtain ⟨p1, p2⟩ := rlePacket_i _ _ _ _ _ hp
        obtain ⟨q1, q2⟩ := ih s1 h (by omega)
        refine ⟨fun _ => ?_, fun hge => by omega⟩
        by_cases hs1 : s1.i < pixels
        · exact q1 hs1
        · rw [q2 (by omega)]
          omega
    · rename_i hge
      simp only [Option.some.injEq] at h
      subst h
      exact ⟨fun hlt => by omega, fun _ => rfl⟩

theorem rleLiteral_colorsRead (buffer : List Byte) (bits c : Int) (n : Nat) (s s' : RleState)
    (h : rleLiteral buffer bits c n s = some s') : s'.colorsRead = s.colorsRead + c * n := by
  induction n generalizing s with
  | zero =>
    simp only [rleLiteral, Option.some.injEq] at h
    subst h
    simp
  | succ n ih =>
    simp only [rleLiteral] at h
    split at h
    · exact Option.noConfusion h
    · split at h
      · exact Option.noConfusion h
      · have := ih _ h
        simp only [] at this
        rw [this]
        push_cast
        ring

theorem rleRepeat_colorsRead (bits c : Int) (pColors : List Byte) (n : Nat) (s s' : RleState)
    (h : rleRepeat bits c pColors n s = some s') : s'.colorsRead = s.colorsRead + c * n := by
  induction n generalizing s with
  | zero =>
    simp only [rleRepeat, Option.some.injEq] at h
    subst h
    simp
  | succ n ih =>
    simp only [rleRepeat] at h
    split at h
    · exact Option.noConfusion h
    · have := ih _ h
      simp only [] at this
      rw [this]
      push_cast
      ring

/-- One packet raises `colorsRead` by `channels` for each pixel it produces. -/
theorem rlePacket_colorsRead (buffer : List Byte) (bits c : Int) (s s' : RleState)
    (h : rlePacket buffer bits c s = some s') :
    s'.colorsRead - s.colorsRead = c * (s'.i - s.i) := by
  simp only [rlePacket] at h
  split at h
  · exact Option.noConfusion h
  · split at h
    · have e1 := rleLiteral_i _ _ _ _ _ _ h
      have e2 := rleLiteral_colorsRead _ _ _ _ _ _ h
      simp only [] at e1 e2
      rw [e1, e2]
      ring
    · split at h
      · exact Option.noConfusion h
      · have e1 := rleRepeat_i _ _ _ _ _ _ h
        have e2 := rleRepeat_colorsRead _ _ _ _ _ _ h
        simp only [] at e1 e2
        rw [e1, e2]
        ring

theorem rleLoop_colorsRead (buffer : List Byte) (bits c pixels : Int) (fuel : Nat)
    (s s' : RleState) (h : rleLoop buffer bits c pixels fuel s = some s') :
    s'.colorsRead - s.colorsRead = c * (s'.i - s.i) := by
  induction fuel generalizing s with
  | zero =>
    simp only [rleLoop, Option.some.injEq] at h
    subst h
    ring
  | succ fuel ih =>
    simp only [rleLoop] at h
    split at h
    · split at h
      · exact Option.noConfusion h
      · rename_i s1 hp
        have e1 := rlePacket_colorsRead _ _ _ _ _ hp
        have e2 := ih s1 h
        linear_combination e1 + e2
    · simp only [Option.some.injEq] at h
      subst h
      ring

/-! ## No loop of loadTGA changes the length of the block -/

theorem memcpy_length (src : List Byte) (n : Nat) (d s : Int) (dst dst' : List Byte)
    (h : memcpy src n d s dst = some dst') : dst'.length = dst.length := by
  induction n generalizing d s dst with
  | zero =>
    simp only [memcpy, Option.some.injEq] at h
    rw [← h]
  | succ n ih =>
    simp only [memcpy] at h
    split at h
    · exact Option.noConfusion h
    · rw [ih _ _ _ h, length_poke]

theorem swapLine_length (pLine stride channels : Int) (fuel : Nat) (i : Int)
    (data data' : List Byte) (h : swapLine pLine stride channels fuel i data = some data') :
    data'.length = data.length := by
  induction fuel generalizing i data with
  | zero =>
    simp only [swapLine, Option.some.injEq] at h
    rw [← h]
  | succ fuel ih =>
    simp only [swapLine] at h
    split at h
    · split at h
      · rw [ih _ _ h, length_poke, length_poke]
      · exact Option.noConfusion h
    · simp only [Option.some.injEq] at h
      rw [← h]

theorem loadLines_length (buffer : List Byte) (stride channels : Int) (n : Nat) (y cur : Int)
    (data data' : List Byte) (h : loadLines buffer stride channels n y cur data = some data') :
    data'.length = data.length := by
  induction n generalizing y cur data with
  | zero =>
    simp only [loadLines, Option.some.injEq] at h
    rw [← h]
  | succ n ih =>
    simp only [loadLines] at h
    split at h
    · exact Option.noConfusion h
    · rename_i data1 h1
      split at h
      · exact Option.noConfusion h
      · rename_i data2 h2
        rw [ih _ _ _ h, swapLine_length _ _ _ _ _ _ _ h2, memcpy_length _ _ _ _ _ _ h1]

theorem load16_length (buffer : List Byte) (n : Nat) (i cur : Int) (data data' : List Byte)
    (h : load16 buffer n i cur data = some data') : data'.length = data.length := by
  induction n generalizing i cur data with
  | zero =>
    simp only [load16, Option.some.injEq] at h
    rw [← h]
  | succ n ih =>
    simp only [load16] at h
    split at h
    · rw [ih _ _ _ h, length_poke, length_poke, length_poke]
    · exact Option.noConfusion h

theorem storeColors_length (bits : Int) (pColors : List Byte) (cr : Int)
    (data data' : List Byte) (h : storeColors bits pColors cr data = some data') :
    data'.length = data.length := by
  simp only [storeColors] at h
  split at h
  · split at h
    · split at h
      · simp only [Option.some.injEq] at h
        rw [← h]
        simp only [length_poke]
      · exact Option.noConfusion h
    · simp only [Option.some.injEq] at h
      rw [← h]
      simp only [length_poke]
  · exact Option.noConfusion h

theorem rleLiteral_length (buffer : List Byte) (bits c : Int) (n : Nat) (s s' : RleState)
    (h : rleLiteral buffer bits c n s = some s') : s'.data.length = s.data.length := by
  induction n generalizing s with
  | zero =>
    simp only [rleLiteral, Option.some.injEq] at h
    rw [← h]
  | succ n ih =>
    simp only [rleLiteral] at h
    split at h
    · exact Option.noConfusion h
    · split at h
      · exact Option.noConfusion h
      · rename_i data hd
        rw [ih _ h]
        exact storeColors_length _ _ _ _ _ hd

theorem rleRepeat_length (bits c : Int) (pColors : List Byte) (n : Nat) (s s' : RleState)
    (h : rleRepeat bits c pColors n s = some s') : s'.data.length = s.data.length := by
  induction n generalizing s with
  | zero =>
    simp only [rleRepeat, Option.some.injEq] at h
    rw [← h]
  | succ n ih =>
    simp only [rleRepeat] at h
    split at h
    · exact Option.noConfusion h
    · rename_i data hd
      rw [ih _ h]
      exact storeColors_length _ _ _ _ _ hd

theorem rlePacket_length (buffer : List Byte) (bits c : Int) (s s' : RleState)
    (h : rlePacket buffer bits c s = some s') : s'.data.length = s.data.length := by
  simp only [rlePacket] at h
  split at h
  · exact Option.noConfusion h
  · split at h
    · have e := rleLiteral_length _ _ _ _ _ _ h
      exact e
    · split at h
      · exact Option.noConfusion h
      · have e := rleRepeat_length _ _ _ _ _ _ h
        exact e

theorem rleLoop_length (buffer : List Byte) (bits c pixels : Int) (fuel : Nat)
    (s s' : RleState) (h : rleLoop buffer bits c pixels fuel s = some s') :
    s'.data.length = s.data.length := by
  induction fuel generalizing s with
  | zero =>
    simp only [rleLoop, Option.some.injEq] at h
    rw [← h]
  | succ fuel ih =>
    simp only [rleLoop] at h
    split at h
    · split at h
      · exact Option.noConfusion h
      · rename_i s1 hp
        rw [ih _ h]
        exact rlePacket_length _ _ _ _ _ hp
    · simp only [Option.some.injEq] at h
      rw [← h]

/-- On an input that is not RLE, `loadTGA` returns 0 exactly when the bits per pixel are none
of 16, 24 and 32. -/
theorem loadTGA_null_iff (junk : Nat → Byte) (buffer : List Byte) (h : Header)
    (hh : readHeader buffer = some h) (ht : h.imageType ≠ TGA_RLE) :
    loadTGA junk buffer = .null ↔ ¬ (h.bits = 16 ∨ h.bits = 24 ∨ h.bits = 32) := by
  simp only [loadTGA, hh, ht, ne_eq, not_false_eq_true, if_true]
  by_cases h1 : h.bits = 24 ∨ h.bits = 32
  · rw [if_pos h1]
    have : h.bits = 16 ∨ h.bits = 24 ∨ h.bits = 32 := Or.inr h1
    simp only [this, not_true_eq_false, iff_false]
    split
    · exact fun e => Loaded.noConfusion e
    · split <;> exact fun e => Loaded.noConfusion e
  · rw [if_neg h1]
    by_cases h2 : h.bits = 16
    · rw [if_pos h2]
      have : h.bits = 16 ∨ h.bits = 24 ∨ h.bits = 32 := Or.inl h2
      simp only [this, not_true_eq_false, iff_false]
      split
      · exact fun e => Loaded.noConfusion e
      · split <;> exact fun e => Loaded.noConfusion e
    · rw [if_neg h2]
      have : ¬ (h.bits = 16 ∨ h.bits = 24 ∨ h.bits = 32) := by
        rintro (e | e | e)
        · exact h2 e
        · exact h1 (Or.inl e)
        · exact h1 (Or.inr e)
      simp only [this, not_false_eq_true]

/-- The header values come from the bytes 0, 2 and 12 to 16 of the buffer. -/
theorem readHeader_eq_some (buffer : List Byte) (h : Header)
    (hh : readHeader buffer = some h) :
    ∃ b0 b2 w0 w1 h0 h1 b16 : Byte, peek buffer 0 = some b0 ∧ peek buffer 2 = some b2 ∧
      peek buffer 12 = some w0 ∧ peek buffer 13 = some w1 ∧ peek buffer 14 = some h0 ∧
      peek buffer 15 = some h1 ∧ peek buffer 16 = some b16 ∧
      h = { length := toGLbyte b0, imageType := toGLbyte b2, width := toShort w0 w1,
            height := toShort h0 h1, bits := toGLbyte b16 } := by
  unfold readHeader at hh
  split at hh
  · exact Option.noConfusion hh
  · rename_i b0 e0
    split at hh
    · exact Option.noConfusion hh
    · rename_i b2 e2
      split at hh
      · rename_i w0 w1 e12 e13
        split at hh
        · rename_i h0 h1 e14 e15
          split at hh
          · exact Option.noConfusion hh
          · rename_i b16 e16
            simp only [Option.some.injEq] at hh
            exact ⟨b0, b2, w0, w1, h0, h1, b16, e0, e2, e12, e13, e14, e15, e16, hh.symm⟩
        · exact Option.noConfusion hh
      · exact Option.noConfusion hh

/-- The ranges of the header values: `width` and `height` are signed 16-bit values, `length`
and `bits` signed chars. -/
theorem readHeader_range (buffer : List Byte) (h : Header) (hh : readHeader buffer = some h) :
    (-32768 ≤ h.width ∧ h.width ≤ 32767) ∧ (-32768 ≤ h.height ∧ h.height ≤ 32767) ∧
    (-128 ≤ h.bits ∧ h.bits ≤ 127) ∧ (-128 ≤ h.length ∧ h.length ≤ 127) := by
  obtain ⟨b0, b2, w0, w1, h0, h1, b16, _, _, _, _, _, _, _, rfl⟩ :=
    readHeader_eq_some buffer h hh
  exact ⟨toShort_range w0 w1, toShort_range h0 h1, toGLbyte_range b16, toGLbyte_range b0⟩

/-- The product of two values from 0 to 32767. -/
theorem mul_range (w h : Int) (hw0 : 0 ≤ w) (hw1 : w ≤ 32767) (hh0 : 0 ≤ h) (hh1 : h ≤ 32767) :
    0 ≤ w * h ∧ w * h ≤ 1073676289 := by
  refine ⟨Int.mul_nonneg hw0 hh0, ?_⟩
  have h1 : w * h ≤ 32767 * h := Int.mul_le_mul_of_nonneg_right hw1 hh0
  omega

/-- For non-negative dimensions and 3 or 4 channels the size `stride * height` is below 2^32:
it is a non-negative `int` exactly when it is below 2^31, and then it is exact. -/
theorem toInt_size (c w h : Int) (hc : c = 3 ∨ c = 4) (hw0 : 0 ≤ w) (hw1 : w ≤ 32767)
    (hh0 : 0 ≤ h) (hh1 : h ≤ 32767) :
    (0 ≤ toInt (c * w * h) ↔ c * w * h ≤ 2147483647) ∧
    (c * w * h ≤ 2147483647 → toInt (c * w * h) = c * w * h) := by
  obtain ⟨m0, m1⟩ := mul_range w h hw0 hw1 hh0 hh1
  have e : c * w * h = c * (w * h) := by ring
  rw [e]
  generalize w * h = P at m0 m1
  by_cases hx : c * P ≤ 2147483647
  · have hf := toInt_of_fits (c * P) (by rcases hc with rfl | rfl <;> omega) hx
    rw [hf]
    exact ⟨⟨fun _ => hx, fun _ => by rcases hc with rfl | rfl <;> omega⟩, fun _ => rfl⟩
  · have hn := toInt_neg (c * P) (by omega) (by rcases hc with rfl | rfl <;> omega)
    exact ⟨⟨fun a => absurd a (by omega), fun a => absurd a hx⟩, fun a => absurd a hx⟩

/-- The header reads stay within the first 17 bytes. -/
theorem readHeader_append (p q : List Byte) (h : 17 ≤ p.length) :
    readHeader (p ++ q) = readHeader p := by
  have e : ∀ i : Int, i < 17 → peek (p ++ q) i = peek p i :=
    fun i hi => peek_append_left p q i (by omega)
  simp only [readHeader, e 0 (by decide), e 2 (by decide), e 12 (by decide), e 13 (by decide),
    e 14 (by decide), e 15 (by decide), e 16 (by decide)]

/-- An uncompressed input of 16, 24 or 32 bits whose size is negative as an `int` gets no
block from `new`. -/
theorem loadTGA_badAlloc (junk : Nat → Byte) (buffer : List Byte) (h : Header)
    (hh : readHeader buffer = some h) (ht : h.imageType ≠ TGA_RLE)
    (hb : h.bits = 16 ∨ h.bits = 24 ∨ h.bits = 32)
    (hn : toInt ((if h.bits = 16 then 3 else h.bits.tdiv 8) * h.width * h.height) < 0) :
    loadTGA junk buffer = .badAlloc := by
  simp only [loadTGA, hh, ht, ne_eq, not_false_eq_true, if_true]
  by_cases h16 : h.bits = 16
  · rw [if_pos h16] at hn
    have hb1 : ¬ (h.bits = 24 ∨ h.bits = 32) := by omega
    have hna : newBytes junk (toInt (3 * h.width * h.height)) = none := by
      simp only [newBytes, if_neg (not_le.mpr hn)]
    rw [if_neg hb1, if_pos h16, hna]
  · rw [if_neg h16] at hn
    have hb1 : h.bits = 24 ∨ h.bits = 32 := by omega
    have hna : newBytes junk (toInt (h.bits.tdiv 8 * h.width * h.height)) = none := by
      simp only [newBytes, if_neg (not_le.mpr hn)]
    rw [if_pos hb1, hna]

/-! ## The claims on flipImageTGA -/

/-- With a negative `sizeY` the line loop does not run. -/
theorem flipImageTGA_of_neg (img : ImageTGA) (h : img.sizeY < 0) : flipImageTGA img = some img := by
  rcases tdiv_two_cases img.sizeY with ⟨h0, _⟩ | ⟨_, hd⟩
  · omega
  · have hz : (img.sizeY.tdiv 2).toNat = 0 := by omega
    simp [flipImageTGA, hz, flipLines]

/-- C6: for every image whose buffer has length `sizeX * sizeY * channels`, flipping twice
succeeds and gives back the image, its data byte for byte equal to the original. -/
theorem flipImageTGA_twice (img : ImageTGA)
    (hlen : (img.data.length : Int) = img.sizeX * img.sizeY * img.channels) :
    (flipImageTGA img).bind flipImageTGA = some img := by
  by_cases hs : img.sizeY < 0
  · rw [flipImageTGA_of_neg img hs, Option.some_bind, flipImageTGA_of_neg img hs]
  have hlen1 : (img.data.length : Int) = img.sizeX * img.channels * img.sizeY := by
    rw [hlen]; ring
  obtain ⟨d1, f1, l1, p1⟩ := flipImageTGA_spec img hlen1
  obtain ⟨d2, f2, l2, p2⟩ := flipImageTGA_spec { img with data := d1 }
    (by show (d1.length : Int) = _; rw [l1]; exact hlen1)
  rw [f1, Option.some_bind, f2]
  have key : d2 = img.data := by
    apply ext_peek
    intro j
    by_cases hj : j < 0 ∨ (img.data.length : Int) ≤ j
    · rw [peek_eq_none d2 j (by simp only [] at l2; omega), peek_eq_none img.data j hj]
    · have hpos : 0 < img.sizeX * img.channels := by
        by_contra hne
        have h2 : (img.sizeX * img.channels) * img.sizeY ≤ 0 * img.sizeY :=
          Int.mul_le_mul_of_nonneg_right (by omega) (by omega)
        omega
      have e := Int.ediv_add_emod j (img.sizeX * img.channels)
      have hb0 := Int.emod_nonneg j (ne_of_gt hpos)
      have hb := Int.emod_lt_of_pos j hpos
      have hr0 : 0 ≤ j / (img.sizeX * img.channels) := Int.ediv_nonneg (by omega) (by omega)
      have hr : j / (img.sizeX * img.channels) < img.sizeY :=
        Int.ediv_lt_of_lt_mul hpos (by rw [Int.mul_comm]; omega)
      have q2 := p2 (j / (img.sizeX * img.channels)) (j % (img.sizeX * img.channels)) hr0 hr hb0 hb
      have q1 := p1 (img.sizeY - 1 - j / (img.sizeX * img.channels))
        (j % (img.sizeX * img.channels)) (by omega) (by omega) hb0 hb
      simp only [] at q2
      have e1 : j / (img.sizeX * img.channels) * (img.sizeX * img.channels) +
          j % (img.sizeX * img.channels) = j := by rw [Int.mul_comm]; exact e
      have e2 : img.sizeY - 1 - (img.sizeY - 1 - j / (img.sizeX * img.channels)) =
          j / (img.sizeX * img.channels) := by omega
      rw [e1] at q2
      rw [e2, e1] at q1
      rw [q2, q1]
  cases img
  simp only [] at key
  simp [key]

/-- The sample image satisfies the length condition of C6 and flips back to itself. -/
theorem flipImageTGA_twice_witness :
    (flipSample.data.length : Int) = flipSample.sizeX * flipSample.sizeY * flipSample.channels ∧
      (flipImageTGA flipSample).bind flipImageTGA = some flipSample :=
  ⟨by decide, flipImageTGA_twice flipSample (by decide)⟩

/-- C7: for every image whose buffer holds `sizeY` lines of `pitch = sizeX * channels` bytes,
`flipImageTGA` succeeds, leaves `sizeX`, `sizeY` and `channels` as they are, and the byte at
line `r`, column offset `b` of the result is the original byte at line `sizeY - 1 - r`, column
offset `b`; the middle line of an image of odd height is unchanged. -/
theorem flipImageTGA_rows (img : ImageTGA)
    (hlen : (img.data.length : Int) = img.sizeX * img.channels * img.sizeY) :
    ∃ img', flipImageTGA img = some img' ∧
      img'.sizeX = img.sizeX ∧ img'.sizeY = img.sizeY ∧ img'.channels = img.channels ∧
      img'.data.length = img.data.length ∧
      (∀ r b : Int, 0 ≤ r → r < img.sizeY → 0 ≤ b → b < img.sizeX * img.channels →
        ∃ v, peek img.data ((img.sizeY - 1 - r) * (img.sizeX * img.channels) + b) = some v ∧
          peek img'.data (r * (img.sizeX * img.channels) + b) = some v) ∧
      (∀ b : Int, 0 ≤ img.sizeY → img.sizeY % 2 = 1 → 0 ≤ b → b < img.sizeX * img.channels →
        peek img'.data (img.sizeY / 2 * (img.sizeX * img.channels) + b) =
          peek img.data (img.sizeY / 2 * (img.sizeX * img.channels) + b)) := by
  obtain ⟨d1, f1, l1, p1⟩ := flipImageTGA_spec img hlen
  refine ⟨_, f1, rfl, rfl, rfl, l1, ?_, ?_⟩
  · intro r b hr0 hr hb0 hb
    have g1 : (img.sizeY - 1 - r) * (img.sizeX * img.channels) ≤
        (img.sizeY - 1) * (img.sizeX * img.channels) :=
      Int.mul_le_mul_of_nonneg_right (by omega) (by omega)
    have g2 : 0 ≤ (img.sizeY - 1 - r) * (img.sizeX * img.channels) :=
      Int.mul_nonneg (by omega) (by omega)
    have g3 : (img.sizeY - 1) * (img.sizeX * img.channels) + img.sizeX * img.channels =
        img.sizeX * img.channels * img.sizeY := by ring
    obtain ⟨v, hv⟩ := peek_some_of_lt img.data
      ((img.sizeY - 1 - r) * (img.sizeX * img.channels) + b) (by omega) (by omega)
    exact ⟨v, hv, by rw [p1 r b hr0 hr hb0 hb, hv]⟩
  · intro b hs hodd hb0 hb
    have q := p1 (img.sizeY / 2) b (by omega) (by omega) hb0 hb
    have e : img.sizeY - 1 - img.sizeY / 2 = img.sizeY / 2 := by omega
    rw [e] at q
    exact q

/-- The sample image satisfies the length condition of C7, with the conclusion of C7. -/
theorem flipImageTGA_rows_witness :
    (flipSample.data.length : Int) = flipSample.sizeX * flipSample.channels * flipSample.sizeY ∧
    ∃ img', flipImageTGA flipSample = some img' ∧
      img'.sizeX = flipSample.sizeX ∧ img'.sizeY = flipSample.sizeY ∧
      img'.channels = flipSample.channels ∧
      img'.data.length = flipSample.data.length ∧
      (∀ r b : Int, 0 ≤ r → r < flipSample.sizeY → 0 ≤ b →
        b < flipSample.sizeX * flipSample.channels →
        ∃ v, peek flipSample.data
            ((flipSample.sizeY - 1 - r) * (flipSample.sizeX * flipSample.channels) + b) = some v ∧
          peek img'.data (r * (flipSample.sizeX * flipSample.channels) + b) = some v) ∧
      (∀ b : Int, 0 ≤ flipSample.sizeY → flipSample.sizeY % 2 = 1 → 0 ≤ b →
        b < flipSample.sizeX * flipSample.channels →
        peek img'.data (flipSample.sizeY / 2 * (flipSample.sizeX * flipSample.channels) + b) =
          peek flipSample.data
            (flipSample.sizeY / 2 * (flipSample.sizeX * flipSample.channels) + b)) :=
  ⟨by decide, flipImageTGA_rows flipSample (by decide)⟩

/-! ## The claims on the uncompressed branches -/

theorem tga24Huge_length : tga24Huge.length = 2147581965 := by
  unfold tga24Huge
  rw [List.length_append, List.length_replicate]
  rfl

theorem tga16Huge_length : tga16Huge.length = 1431721316 := by
  unfold tga16Huge
  rw [List.length_append, List.length_replicate]
  rfl

theorem tga16Wide_length : tga16Wide.length = 18 + 2 * 65535 := by
  unfold tga16Wide
  rw [List.length_append, List.length_replicate]
  rfl

theorem tga24Huge_header : readHeader tga24Huge = some tga24HugeHeader := by
  unfold tga24Huge
  rw [readHeader_append _ _ (by decide)]
  decide

theorem tga16Huge_header : readHeader tga16Huge = some tga16HugeHeader := by
  unfold tga16Huge
  rw [readHeader_append _ _ (by decide)]
  decide

theorem tga16Wide_header : readHeader tga16Wide = some tga16WideHeader := by
  unfold tga16Wide
  rw [readHeader_append _ _ (by decide)]
  decide

/-- C1, as amended: for every uncompressed input with 24 or 32 bits per pixel, a byte 0
(idLength) of at most 127, which is then the value `length`, `width ≥ 0`, `height ≥ 0`, a size
`width * height * c` of at most 2^31 - 1 (`c = bits / 8`) and `width * height * c` bytes of
pixel data after the header and the identification field, that is from the offset
`18 + length` on, `loadTGA` returns an image with `sizeX = width`, `sizeY = height`,
`channels = c` and `width * height * c` bytes of data, in which pixel `k` has bytes 0 and 2 of
source pixel `k` exchanged and bytes 1 and 3 in place. -/
theorem loadTGA_uncompressed_swaps (junk : Nat → Byte) (buffer : List Byte) (h : Header)
    (c : Int) (hh : readHeader buffer = some h) (ht : h.imageType ≠ TGA_RLE)
    (hb : h.bits = 24 ∨ h.bits = 32) (hc : c = h.bits / 8)
    (hw : 0 ≤ h.width) (hht : 0 ≤ h.height) (hid : 0 ≤ h.length)
    (hfit : h.width * h.height * c ≤ 2147483647)
    (hlen : 18 + h.length + h.width * h.height * c ≤ buffer.length) :
    ∃ img, loadTGA junk buffer = .image img ∧
      img.sizeX = h.width ∧ img.sizeY = h.height ∧ img.channels = c ∧
      (img.data.length : Int) = h.width * h.height * c ∧
      ∀ k : Int, 0 ≤ k → k < h.width * h.height →
        peek img.data (k * c + 0) = peek buffer (18 + h.length + (k * c + 2)) ∧
        peek img.data (k * c + 1) = peek buffer (18 + h.length + (k * c + 1)) ∧
        peek img.data (k * c + 2) = peek buffer (18 + h.length + (k * c + 0)) ∧
        (c = 4 → peek img.data (k * c + 3) = peek buffer (18 + h.length + (k * c + 3))) := by
  have hc34 : c = 3 ∨ c = 4 := by rcases hb with e | e <;> rw [hc, e] <;> decide
  have htd : h.bits.tdiv 8 = c := by rw [hc]; exact Int.tdiv_eq_ediv (by omega) (by decide)
  have g0 : 0 ≤ h.width * h.height := Int.mul_nonneg hw hht
  have e1 : c * h.width * h.height = h.width * h.height * c := by ring
  have e2 : c * h.width * (h.height.toNat : Int) = h.width * h.height * c := by
    rw [Int.toNat_of_nonneg hht]; ring
  have e0 : toInt (c * h.width * h.height) = c * h.width * h.height :=
    toInt_of_fits _ (by rw [e1]; rcases hc34 with rfl | rfl <;> omega) (by rw [e1]; exact hfit)
  obtain ⟨data, a1, a2⟩ := newBytes_spec junk (c * h.width * h.height)
    (by rw [e1]; rcases hc34 with rfl | rfl <;> omega)
  obtain ⟨data', l1, l2, l3⟩ := loadLines_spec buffer (c * h.width) c h.height.toNat 0
    (17 + (h.length + 1)) data hc34
    (Int.mul_nonneg (by rcases hc34 with rfl | rfl <;> omega) hw)
    (Int.mul_emod_right c h.width) (le_refl 0) (by omega) (by rw [e2]; omega)
    (by rw [e2]; omega)
  refine ⟨{ channels := c, sizeX := h.width, sizeY := h.height, data := data' }, ?_, rfl, rfl,
    rfl, by show (data'.length : Int) = _; omega, ?_⟩
  · simp only [loadTGA, hh, ht, hb, htd, e0, a1, l1, ne_eq, not_false_eq_true, if_true]
  · intro k hk0 hk
    simp only [l3, e2, swapped]
    rcases hc34 with rfl | rfl
    · refine ⟨?_, ?_, ?_, ?_⟩ <;>
      first
      | (intro hcontra; omega)
      | (split_ifs <;> first | omega | (congr 1; omega))
    · refine ⟨?_, ?_, ?_, ?_⟩ <;>
      first
      | (intro _; split_ifs <;> first | omega | (congr 1; omega))
      | (split_ifs <;> first | omega | (congr 1; omega))

/-- The 1x1 24-bit file with pixel bytes (255, 0, 0) meets the conditions of C1 and decodes to
a 1x1 image of 3 channels with bytes (0, 0, 255). -/
theorem loadTGA_uncompressed_swaps_witness :
    readHeader tga24 = some tga24Header ∧ tga24Header.imageType ≠ TGA_RLE ∧
    (tga24Header.bits = 24 ∨ tga24Header.bits = 32) ∧ (3 : Int) = tga24Header.bits / 8 ∧
    0 ≤ tga24Header.width ∧ 0 ≤ tga24Header.height ∧ 0 ≤ tga24Header.length ∧
    tga24Header.width * tga24Header.height * 3 ≤ 2147483647 ∧
    18 + tga24Header.length + tga24Header.width * tga24Header.height * 3 ≤ tga24.length ∧
    (∃ img, loadTGA zeroFill tga24 = .image img ∧
      img.sizeX = tga24Header.width ∧ img.sizeY = tga24Header.height ∧ img.channels = 3 ∧
      (img.data.length : Int) = tga24Header.width * tga24Header.height * 3 ∧
      ∀ k : Int, 0 ≤ k → k < tga24Header.width * tga24Header.height →
        peek img.data (k * 3 + 0) = peek tga24 (18 + tga24Header.length + (k * 3 + 2)) ∧
        peek img.data (k * 3 + 1) = peek tga24 (18 + tga24Header.length + (k * 3 + 1)) ∧
        peek img.data (k * 3 + 2) = peek tga24 (18 + tga24Header.length + (k * 3 + 0)) ∧
        ((3 : Int) = 4 →
          peek img.data (k * 3 + 3) = peek tga24 (18 + tga24Header.length + (k * 3 + 3)))) ∧
    loadTGA zeroFill tga24 =
      .image { channels := 3, sizeX := 1, sizeY := 1, data := [0, 0, 255] } :=
  ⟨by decide, by decide, by decide, by decide, by decide, by decide, by decide, by decide,
    by decide,
    loadTGA_uncompressed_swaps zeroFill tga24 tga24Header 3 (by decide) (by decide) (by decide)
      (by decide) (by decide) (by decide) (by decide) (by decide) (by decide), by decide⟩

/-- C1 fails on `tga24Huge`, an uncompressed 24-bit file of width 32767 and height 21847 that
holds all its 2147581947 pixel bytes: the size `stride * height` is above 2^31 - 1, the `int`
product is negative and the allocation fails, so no image is returned. -/
theorem loadTGA_size_overflow :
    readHeader tga24Huge = some tga24HugeHeader ∧ tga24HugeHeader.imageType ≠ TGA_RLE ∧
    tga24HugeHeader.bits = 24 ∧ 0 ≤ tga24HugeHeader.width ∧ 0 ≤ tga24HugeHeader.height ∧
    tga24HugeHeader.width * tga24HugeHeader.height * 3 = 2147581947 ∧
    18 + tga24HugeHeader.length + tga24HugeHeader.width * tga24HugeHeader.height * 3 ≤
      tga24Huge.length ∧
    toInt (3 * tga24HugeHeader.width * tga24HugeHeader.height) = -2147385349 ∧
    loadTGA zeroFill tga24Huge = .badAlloc := by
  refine ⟨tga24Huge_header, by decide, by decide, by decide, by decide, by decide, ?_,
    by decide,
    loadTGA_badAlloc zeroFill tga24Huge tga24HugeHeader tga24Huge_header (by decide)
      (by decide) (by decide)⟩
  rw [tga24Huge_length]
  decide

/-- C2, as amended: for every uncompressed 16-bit input with a byte 0 (idLength) of at most
127, which is then the value `length`, `width * height ≥ 0` for the width and height read as
signed 16-bit values, a size `3 * width * height` of at most 2^31 - 1 and
`2 * width * height` bytes of pixel data after the header and the identification field, that
is from the offset `18 + length` on, `loadTGA` returns an image with `channels = 3` in which
the bytes of pixel `k` are, in order, `((p >> 10) & 31) << 3`, `((p >> 5) & 31) << 3` and
`(p & 31) << 3`, for `p` the little-endian 16-bit word at pixel position `k`. -/
theorem loadTGA_uncompressed16 (junk : Nat → Byte) (buffer : List Byte) (h : Header)
    (hh : readHeader buffer = some h) (ht : h.imageType ≠ TGA_RLE) (hb : h.bits = 16)
    (hwh : 0 ≤ h.width * h.height) (hid : 0 ≤ h.length)
    (hfit : 3 * (h.width * h.height) ≤ 2147483647)
    (hlen : 18 + h.length + 2 * (h.width * h.height) ≤ buffer.length) :
    ∃ img, loadTGA junk buffer = .image img ∧ img.channels = 3 ∧
      img.sizeX = h.width ∧ img.sizeY = h.height ∧
      (img.data.length : Int) = 3 * (h.width * h.height) ∧
      ∀ k : Int, 0 ≤ k → k < h.width * h.height →
        ∃ lo hi r g b : Byte, peek buffer (18 + h.length + 2 * k) = some lo ∧
          peek buffer (18 + h.length + 2 * k + 1) = some hi ∧
          peek img.data (k * 3 + 0) = some r ∧ peek img.data (k * 3 + 1) = some g ∧
          peek img.data (k * 3 + 2) = some b ∧
          r.val = (((lo.val + 256 * hi.val) >>> 10) &&& 31) <<< 3 ∧
          g.val = (((lo.val + 256 * hi.val) >>> 5) &&& 31) <<< 3 ∧
          b.val = ((lo.val + 256 * hi.val) &&& 31) <<< 3 := by
  have g0 : 0 ≤ h.width * h.height := hwh
  have e1 : 3 * h.width * h.height = 3 * (h.width * h.height) := by ring
  have e0 : toInt (3 * h.width * h.height) = 3 * h.width * h.height :=
    toInt_of_fits _ (by omega) (by omega)
  obtain ⟨data, a1, a2⟩ := newBytes_spec junk (3 * h.width * h.height) (by omega)
  obtain ⟨data', l1, l2, _, l4⟩ := load16_spec buffer (h.width * h.height).toNat 0
    (17 + (h.length + 1)) data (le_refl 0) (by omega) (by omega) (by omega)
  refine ⟨{ channels := 3, sizeX := h.width, sizeY := h.height, data := data' }, ?_, rfl, rfl,
    rfl, by show (data'.length : Int) = _; omega, ?_⟩
  · have hb1 : ¬ (h.bits = 24 ∨ h.bits = 32) := by omega
    simp only [loadTGA, hh, ht, hb1, ne_eq, not_false_eq_true, if_true, if_false]
    rw [if_pos hb]
    simp only [e0, a1, l1]
  · intro k hk0 hk
    obtain ⟨lo, hi, q1, q2, q3, q4, q5⟩ := l4 k hk0 (by omega)
    refine ⟨lo, hi, _, _, _, ?_, ?_, q3, q4, q5, toUChar_field _, toUChar_field _,
      toUChar_field _⟩
    · rw [← q1]; congr 1; omega
    · rw [← q2]; congr 1; omega

/-- The 2x1 16-bit file with pixel words 0x0000 and 0xFFFF meets the conditions of C2 and
decodes to the bytes (0, 0, 0) and (248, 248, 248). -/
theorem loadTGA_uncompressed16_witness :
    readHeader tga16 = some tga16Header ∧ tga16Header.imageType ≠ TGA_RLE ∧
    tga16Header.bits = 16 ∧ 0 ≤ tga16Header.width * tga16Header.height ∧
    0 ≤ tga16Header.length ∧ 3 * (tga16Header.width * tga16Header.height) ≤ 2147483647 ∧
    18 + tga16Header.length + 2 * (tga16Header.width * tga16Header.height) ≤ tga16.length ∧
    (∃ img, loadTGA zeroFill tga16 = .image img ∧ img.channels = 3 ∧
      img.sizeX = tga16Header.width ∧ img.sizeY = tga16Header.height ∧
      (img.data.length : Int) = 3 * (tga16Header.width * tga16Header.height) ∧
      ∀ k : Int, 0 ≤ k → k < tga16Header.width * tga16Header.height →
        ∃ lo hi r g b : Byte, peek tga16 (18 + tga16Header.length + 2 * k) = some lo ∧
          peek tga16 (18 + tga16Header.length + 2 * k + 1) = some hi ∧
          peek img.data (k * 3 + 0) = some r ∧ peek img.data (k * 3 + 1) = some g ∧
          peek img.data (k * 3 + 2) = some b ∧
          r.val = (((lo.val + 256 * hi.val) >>> 10) &&& 31) <<< 3 ∧
          g.val = (((lo.val + 256 * hi.val) >>> 5) &&& 31) <<< 3 ∧
          b.val = ((lo.val + 256 * hi.val) &&& 31) <<< 3) ∧
    loadTGA zeroFill tga16 =
      .image { channels := 3, sizeX := 2, sizeY := 1, data := [0, 0, 0, 248, 248, 248] } :=
  ⟨by decide, by decide, by decide, by decide, by decide, by decide, by decide,
    loadTGA_uncompressed16 zeroFill tga16 tga16Header (by decide) (by decide) (by decide)
      (by decide) (by decide) (by decide) (by decide), by decide⟩

/-- C2 fails on `tga16Huge`, an uncompressed 16-bit file of width 32767 and height 21847 that
holds all its 1431721298 pixel bytes: the size `3 * width * height` is above 2^31 - 1, the
`int` product is negative and the allocation fails. It fails on `tga16Wide` as well, a 16-bit
file with the width bytes FF FF, height 1 and 131070 bytes of pixel data: the width is read
as -1, the size is -3 and the allocation fails. -/
theorem loadTGA_size_overflow16 :
    readHeader tga16Huge = some tga16HugeHeader ∧ tga16HugeHeader.imageType ≠ TGA_RLE ∧
    tga16HugeHeader.bits = 16 ∧
    2 * (tga16HugeHeader.width * tga16HugeHeader.height) = 1431721298 ∧
    18 + tga16HugeHeader.length + 2 * (tga16HugeHeader.width * tga16HugeHeader.height) ≤
      tga16Huge.length ∧
    toInt (3 * tga16HugeHeader.width * tga16HugeHeader.height) = -2147385349 ∧
    loadTGA zeroFill tga16Huge = .badAlloc ∧
    readHeader tga16Wide = some tga16WideHeader ∧ tga16WideHeader.imageType ≠ TGA_RLE ∧
    tga16WideHeader.bits = 16 ∧ tga16WideHeader.width = -1 ∧ tga16WideHeader.height = 1 ∧
    tga16Wide.length = 18 + 2 * 65535 ∧
    loadTGA zeroFill tga16Wide = .badAlloc := by
  refine ⟨tga16Huge_header, by decide, by decide, by decide, ?_, by decide,
    loadTGA_badAlloc zeroFill tga16Huge tga16HugeHeader tga16Huge_header (by decide)
      (by decide) (by decide),
    tga16Wide_header, by decide, by decide, by decide, by decide, tga16Wide_length,
    loadTGA_badAlloc zeroFill tga16Wide tga16WideHeader tga16Wide_header (by decide)
      (by decide) (by decide)⟩
  rw [tga16Huge_length]
  decide

/-! ## The claims on the RLE branch -/

/-- C3: in the RLE decoder with 24 or 32 bits per pixel (`c = bits / 8`), a packet whose control
byte `rleID` is below 128 and whose `rleID + 1` pixels are in the input consumes the control
byte and exactly `rleID + 1` consecutive pixels of `c` bytes and produces exactly `rleID + 1`
pixels: pixel `k` of the packet is stored at `colorsRead + c * k` as the bytes 2, 1, 0 of stream
pixel `k`, followed by its byte 3 when `c = 4` (stated for the bytes that lie in the block);
nothing else in the block changes. -/
theorem rlePacket_literal (buffer : List Byte) (bits c : Int) (s : RleState) (rleID : Byte)
    (hb : bits = 24 ∨ bits = 32) (hc : c = bits / 8)
    (hid : peek buffer s.cur = some rleID) (hlt : rleID.val < 128)
    (hsrc : s.cur + 1 + c * ((rleID.val : Int) + 1) ≤ buffer.length) :
    ∃ s', rlePacket buffer bits c s = some s' ∧
      s'.cur = s.cur + 1 + c * ((rleID.val : Int) + 1) ∧
      s'.i = s.i + ((rleID.val : Int) + 1) ∧
      s'.colorsRead = s.colorsRead + c * ((rleID.val : Int) + 1) ∧
      s'.data.length = s.data.length ∧
      (∀ j : Int, j < s.colorsRead ∨ s.colorsRead + c * ((rleID.val : Int) + 1) ≤ j →
        peek s'.data j = peek s.data j) ∧
      ∀ k : Int, 0 ≤ k → k ≤ rleID.val →
        (0 ≤ s.colorsRead + c * k + 0 → s.colorsRead + c * k + 0 < s.data.length →
          peek s'.data (s.colorsRead + c * k + 0) = peek buffer (s.cur + 1 + c * k + 2)) ∧
        (0 ≤ s.colorsRead + c * k + 1 → s.colorsRead + c * k + 1 < s.data.length →
          peek s'.data (s.colorsRead + c * k + 1) = peek buffer (s.cur + 1 + c * k + 1)) ∧
        (0 ≤ s.colorsRead + c * k + 2 → s.colorsRead + c * k + 2 < s.data.length →
          peek s'.data (s.colorsRead + c * k + 2) = peek buffer (s.cur + 1 + c * k + 0)) ∧
        (c = 4 → 0 ≤ s.colorsRead + c * k + 3 → s.colorsRead + c * k + 3 < s.data.length →
          peek s'.data (s.colorsRead + c * k + 3) = peek buffer (s.cur + 1 + c * k + 3)) := by
  have hbc : bits = 24 ∧ c = 3 ∨ bits = 32 ∧ c = 4 := by
    rcases hb with e | e
    · exact Or.inl ⟨e, by rw [hc, e]; decide⟩
    · exact Or.inr ⟨e, by rw [hc, e]; decide⟩
  have hc34 : c = 3 ∨ c = 4 := by rcases hbc with ⟨_, e⟩ | ⟨_, e⟩ <;> simp [e]
  obtain ⟨hcur0, _⟩ := peek_some_bounds buffer s.cur rleID hid
  have hn := literal_count rleID hlt
  obtain ⟨s', h1, h2, h3, h4, h5, h6⟩ := rleLiteral_spec buffer bits c (rleID + 1).val
    { s with cur := s.cur + 1 } hbc (by show 0 ≤ s.cur + 1; omega)
    (by show s.cur + 1 + c * (((rleID + 1).val : Nat) : Int) ≤ _; rw [hn]; push_cast; omega)
  simp only [] at h2 h3 h4 h5 h6
  rw [hn] at h2 h3 h4 h6
  push_cast at h2 h3 h4 h6
  refine ⟨s', ?_, h2, h3, h4, h5, ?_, ?_⟩
  · simp only [rlePacket, hid, hlt, if_true]
    exact h1
  · intro j hj
    rw [h6 j, if_neg (by omega)]
  · intro k hk0 hk
    simp only [h6, swapped]
    rcases hc34 with rfl | rfl
    · refine ⟨?_, ?_, ?_, ?_⟩ <;> intros <;>
        first
        | omega
        | (split_ifs <;> first | omega | (congr 1; omega))
    · refine ⟨?_, ?_, ?_, ?_⟩ <;> intros <;>
        first
        | omega
        | (split_ifs <;> first | omega | (congr 1; omega))

/-- The first packet of `tgaRle`, a literal packet of two pixels, meets the conditions of C3. -/
theorem rlePacket_literal_witness :
    ((24 : Int) = 24 ∨ (24 : Int) = 32) ∧ (3 : Int) = 24 / 8 ∧
    peek tgaRle rleStart.cur = some 1 ∧ (1 : Byte).val < 128 ∧
    rleStart.cur + 1 + 3 * (((1 : Byte).val : Int) + 1) ≤ tgaRle.length ∧
    (∃ s', rlePacket tgaRle 24 3 rleStart = some s' ∧
      s'.cur = rleStart.cur + 1 + 3 * (((1 : Byte).val : Int) + 1) ∧
      s'.i = rleStart.i + (((1 : Byte).val : Int) + 1) ∧
      s'.colorsRead = rleStart.colorsRead + 3 * (((1 : Byte).val : Int) + 1) ∧
      s'.data.length = rleStart.data.length ∧
      (∀ j : Int, j < rleStart.colorsRead ∨
          rleStart.colorsRead + 3 * (((1 : Byte).val : Int) + 1) ≤ j →
        peek s'.data j = peek rleStart.data j) ∧
      ∀ k : Int, 0 ≤ k → k ≤ (1 : Byte).val →
        (0 ≤ rleStart.colorsRead + 3 * k + 0 →
          rleStart.colorsRead + 3 * k + 0 < rleStart.data.length →
          peek s'.data (rleStart.colorsRead + 3 * k + 0) =
            peek tgaRle (rleStart.cur + 1 + 3 * k + 2)) ∧
        (0 ≤ rleStart.colorsRead + 3 * k + 1 →
          rleStart.colorsRead + 3 * k + 1 < rleStart.data.length →
          peek s'.data (rleStart.colorsRead + 3 * k + 1) =
            peek tgaRle (rleStart.cur + 1 + 3 * k + 1)) ∧
        (0 ≤ rleStart.colorsRead + 3 * k + 2 →
          rleStart.colorsRead + 3 * k + 2 < rleStart.data.length →
          peek s'.data (rleStart.colorsRead + 3 * k + 2) =
            peek tgaRle (rleStart.cur + 1 + 3 * k + 0)) ∧
        ((3 : Int) = 4 → 0 ≤ rleStart.colorsRead + 3 * k + 3 →
          rleStart.colorsRead + 3 * k + 3 < rleStart.data.length →
          peek s'.data (rleStart.colorsRead + 3 * k + 3) =
            peek tgaRle (rleStart.cur + 1 + 3 * k + 3))) ∧
    rlePacket tgaRle 24 3 rleStart = some rleMiddle :=
  ⟨by decide, by decide, by decide, by decide, by decide,
    rlePacket_literal tgaRle 24 3 rleStart 1 (by decide) (by decide) (by decide) (by decide)
      (by decide), by decide⟩

/-- C4: in the RLE decoder with 24 or 32 bits per pixel (`c = bits / 8`), a packet whose control
byte `rleID` is at least 128 and whose pixel is in the input consumes the control byte and
exactly one pixel of `c` bytes and produces exactly `rleID - 127` pixels: each is stored, at
`colorsRead + c * k`, as the bytes 2, 1, 0 of that stream pixel, followed by its byte 3 when
`c = 4` (stated for the bytes that lie in the block); nothing else in the block changes. -/
theorem rlePacket_run (buffer : List Byte) (bits c : Int) (s : RleState) (rleID : Byte)
    (hb : bits = 24 ∨ bits = 32) (hc : c = bits / 8)
    (hid : peek buffer s.cur = some rleID) (hge : 128 ≤ rleID.val)
    (hsrc : s.cur + 1 + c ≤ buffer.length) :
    ∃ s', rlePacket buffer bits c s = some s' ∧
      s'.cur = s.cur + 1 + c ∧
      s'.i = s.i + ((rleID.val : Int) - 127) ∧
      s'.colorsRead = s.colorsRead + c * ((rleID.val : Int) - 127) ∧
      s'.data.length = s.data.length ∧
      (∀ j : Int, j < s.colorsRead ∨ s.colorsRead + c * ((rleID.val : Int) - 127) ≤ j →
        peek s'.data j = peek s.data j) ∧
      ∀ k : Int, 0 ≤ k → k < (rleID.val : Int) - 127 →
        (0 ≤ s.colorsRead + c * k + 0 → s.colorsRead + c * k + 0 < s.data.length →
          peek s'.data (s.colorsRead + c * k + 0) = peek buffer (s.cur + 1 + 2)) ∧
        (0 ≤ s.colorsRead + c * k + 1 → s.colorsRead + c * k + 1 < s.data.length →
          peek s'.data (s.colorsRead + c * k + 1) = peek buffer (s.cur + 1 + 1)) ∧
        (0 ≤ s.colorsRead + c * k + 2 → s.colorsRead + c * k + 2 < s.data.length →
          peek s'.data (s.colorsRead + c * k + 2) = peek buffer (s.cur + 1 + 0)) ∧
        (c = 4 → 0 ≤ s.colorsRead + c * k + 3 → s.colorsRead + c * k + 3 < s.data.length →
          peek s'.data (s.colorsRead + c * k + 3) = peek buffer (s.cur + 1 + 3)) := by
  have hbc : bits = 24 ∧ c = 3 ∨ bits = 32 ∧ c = 4 := by
    rcases hb with e | e
    · exact Or.inl ⟨e, by rw [hc, e]; decide⟩
    · exact Or.inr ⟨e, by rw [hc, e]; decide⟩
  have hc34 : c = 3 ∨ c = 4 := by rcases hbc with ⟨_, e⟩ | ⟨_, e⟩ <;> simp [e]
  obtain ⟨hcur0, _⟩ := peek_some_bounds buffer s.cur rleID hid
  have hn := repeat_count rleID hge
  have hnl : ¬ rleID.val < 128 := by omega
  obtain ⟨pColors, p1, p2, p3⟩ := readBytes_spec buffer c.toNat (s.cur + 1) (by omega)
    (by rcases hc34 with rfl | rfl <;> omega)
  obtain ⟨s', h1, h2, h3, h4, h5, h6⟩ := rleRepeat_spec bits c pColors (rleID - 127).val
    { s with cur := s.cur + 1 + c } hbc (by rcases hc34 with rfl | rfl <;> omega)
  simp only [] at h2 h3 h4 h5 h6
  rw [hn] at h3 h4 h6
  have e127 : ((rleID.val - 127 : Nat) : Int) = (rleID.val : Int) - 127 := by omega
  rw [e127] at h3 h4 h6
  refine ⟨s', ?_, h2, h3, h4, h5, ?_, ?_⟩
  · simp only [rlePacket, hid, hnl, if_false, p1]
    exact h1
  · intro j hj
    rw [h6 j, if_neg (by omega)]
  · intro k hk0 hk
    have q0 := p3 0 (by omega) (by rcases hc34 with rfl | rfl <;> omega)
    have q1 := p3 1 (by omega) (by rcases hc34 with rfl | rfl <;> omega)
    have q2 := p3 2 (by omega) (by rcases hc34 with rfl | rfl <;> omega)
    simp only [h6, swapped]
    rcases hc34 with rfl | rfl
    · refine ⟨?_, ?_, ?_, ?_⟩ <;> intros <;>
        first
        | omega
        | (split_ifs <;>
            first
            | omega
            | (rw [← q0]; congr 1; omega)
            | (rw [← q1]; congr 1; omega)
            | (rw [← q2]; congr 1; omega))
    · have q3 := p3 3 (by omega) (by omega)
      refine ⟨?_, ?_, ?_, ?_⟩ <;> intros <;>
        first
        | omega
        | (split_ifs <;>
            first
            | omega
            | (rw [← q0]; congr 1; omega)
            | (rw [← q1]; congr 1; omega)
            | (rw [← q2]; congr 1; omega)
            | (rw [← q3]; congr 1; omega))

/-- The second packet of `tgaRle`, a run packet of two pixels, meets the conditions of C4. -/
theorem rlePacket_run_witness :
    ((24 : Int) = 24 ∨ (24 : Int) = 32) ∧ (3 : Int) = 24 / 8 ∧
    peek tgaRle rleMiddle.cur = some 129 ∧ 128 ≤ (129 : Byte).val ∧
    rleMiddle.cur + 1 + 3 ≤ tgaRle.length ∧
    (∃ s', rlePacket tgaRle 24 3 rleMiddle = some s' ∧
      s'.cur = rleMiddle.cur + 1 + 3 ∧
      s'.i = rleMiddle.i + (((129 : Byte).val : Int) - 127) ∧
      s'.colorsRead = rleMiddle.colorsRead + 3 * (((129 : Byte).val : Int) - 127) ∧
      s'.data.length = rleMiddle.data.length ∧
      (∀ j : Int, j < rleMiddle.colorsRead ∨
          rleMiddle.colorsRead + 3 * (((129 : Byte).val : Int) - 127) ≤ j →
        peek s'.data j = peek rleMiddle.data j) ∧
      ∀ k : Int, 0 ≤ k → k < ((129 : Byte).val : Int) - 127 →
        (0 ≤ rleMiddle.colorsRead + 3 * k + 0 →
          rleMiddle.colorsRead + 3 * k + 0 < rleMiddle.data.length →
          peek s'.data (rleMiddle.colorsRead + 3 * k + 0) = peek tgaRle (rleMiddle.cur + 1 + 2)) ∧
        (0 ≤ rleMiddle.colorsRead + 3 * k + 1 →
          rleMiddle.colorsRead + 3 * k + 1 < rleMiddle.data.length →
          peek s'.data (rleMiddle.colorsRead + 3 * k + 1) = peek tgaRle (rleMiddle.cur + 1 + 1)) ∧
        (0 ≤ rleMiddle.colorsRead + 3 * k + 2 →
          rleMiddle.colorsRead + 3 * k + 2 < rleMiddle.data.length →
          peek s'.data (rleMiddle.colorsRead + 3 * k + 2) = peek tgaRle (rleMiddle.cur + 1 + 0)) ∧
        ((3 : Int) = 4 → 0 ≤ rleMiddle.colorsRead + 3 * k + 3 →
          rleMiddle.colorsRead + 3 * k + 3 < rleMiddle.data.length →
          peek s'.data (rleMiddle.colorsRead + 3 * k + 3) =
            peek tgaRle (rleMiddle.cur + 1 + 3))) ∧
    rlePacket tgaRle 24 3 rleMiddle =
      some { cur := 29, i := 4, colorsRead := 12,
             data := [3, 2, 1, 6, 5, 4, 9, 8, 7, 9, 8, 7] } :=
  ⟨by decide, by decide, by decide, by decide, by decide,
    rlePacket_run tgaRle 24 3 rleMiddle 129 (by decide) (by decide) (by decide) (by decide)
      (by decide), by decide⟩

/-- An RLE input with no pixel to produce, `width * height ≤ 0`, whose allocations succeed: the
loop does not run and the block is returned as it came from `new`. -/
theorem loadTGA_rle_no_pixels (junk : Nat → Byte) (buffer : List Byte) (h : Header)
    (data : List Byte) (hh : readHeader buffer = some h) (ht : h.imageType = TGA_RLE)
    (hwh : h.width * h.height ≤ 0) (hc : 0 ≤ h.bits.tdiv 8)
    (hd : newBytes junk (toInt (h.bits.tdiv 8 * h.width * h.height)) = some data) :
    rleRun buffer h data =
      some { cur := 17 + (h.length + 1), i := 0, colorsRead := 0, data := data } ∧
    loadTGA junk buffer =
      .image { channels := h.bits.tdiv 8, sizeX := h.width, sizeY := h.height,
               data := data } := by
  have hz : (h.width * h.height).toNat = 0 := by omega
  have hr : rleRun buffer h data =
      some { cur := 17 + (h.length + 1), i := 0, colorsRead := 0, data := data } := by
    unfold rleRun
    rw [hz]
    rfl
  refine ⟨hr, ?_⟩
  have hc1 : ¬ h.bits.tdiv 8 < 0 := by omega
  simp only [loadTGA, hh, ht, hd, hc1, hr, ne_eq, not_true_eq_false, if_false]

/-- C5, as amended: for every RLE input with 24 or 32 bits per pixel and `width * height ≥ 0`
on which `loadTGA` returns an image, the number of pixels the RLE loop has produced when it
stops is at least `width * height` and at most `width * height + 127`: the loop stops at the
first packet boundary at or after `width * height` pixels. It is `width * height` exactly when
the stores of the loop have stayed inside the block, that is when `colorsRead` ends within its
length. The block has the size `stride * height` as the `int` that is given to `new`. -/
theorem loadTGA_rle_pixels_produced (junk : Nat → Byte) (buffer : List Byte) (h : Header)
    (img : ImageTGA) (hh : readHeader buffer = some h) (ht : h.imageType = TGA_RLE)
    (hb : h.bits = 24 ∨ h.bits = 32) (hnn : 0 ≤ h.width * h.height)
    (hret : loadTGA junk buffer = .image img) :
    ∃ data s, newBytes junk (toInt (h.bits.tdiv 8 * h.width * h.height)) = some data ∧
      rleRun buffer h data = some s ∧ img.data = s.data ∧
      h.width * h.height ≤ s.i ∧ s.i ≤ h.width * h.height + 127 ∧
      (s.colorsRead ≤ data.length → s.i = h.width * h.height) := by
  have hc34 : h.bits.tdiv 8 = 3 ∨ h.bits.tdiv 8 = 4 := by
    rcases hb with e | e <;> rw [e] <;> decide
  have e1 : h.bits.tdiv 8 * h.width * h.height = h.bits.tdiv 8 * (h.width * h.height) := by
    ring
  simp only [loadTGA, hh, ht, ne_eq, not_true_eq_false, if_false] at hret
  split at hret
  · exact Loaded.noConfusion hret
  · rename_i data hdata
    split at hret
    · exact Loaded.noConfusion hret
    · split at hret
      · exact Loaded.noConfusion hret
      · rename_i s hs
        have himg : img.data = s.data := by
          injection hret with e
          rw [← e]
        have hl := hs
        unfold rleRun at hl
        obtain ⟨q1, q2⟩ := rleLoop_i _ _ _ _ _ _ _ hl (by show _ - (0 : Int) ≤ _; omega)
        have q3 := rleLoop_colorsRead _ _ _ _ _ _ _ hl
        simp only [] at q1 q2 q3
        have hlo : h.width * h.height ≤ s.i := by
          by_cases hz : (0 : Int) < h.width * h.height
          · exact (q1 hz).1
          · rw [q2 (by omega)]
            show h.width * h.height ≤ 0
            omega
        refine ⟨data, s, hdata, hs, himg, hlo, ?_, ?_⟩
        · by_cases hz : (0 : Int) < h.width * h.height
          · exact (q1 hz).2
          · rw [q2 (by omega)]
            show (0 : Int) ≤ h.width * h.height + 127
            omega
        · intro hin
          have hdl := newBytes_length junk _ data hdata
          rw [e1] at hdl
          have hle : toInt (h.bits.tdiv 8 * (h.width * h.height)) ≤
              h.bits.tdiv 8 * (h.width * h.height) := by
            unfold toInt
            rcases hc34 with e | e <;> rw [e] <;> omega
          rcases hc34 with e | e <;> rw [e] at q3 hdl hle <;> omega

/-- The file `tgaRle` meets the conditions of the amended C5; its loop stops at 4 pixels. -/
theorem loadTGA_rle_pixels_produced_witness :
    readHeader tgaRle = some tgaRleHeader ∧ tgaRleHeader.imageType = TGA_RLE ∧
    (tgaRleHeader.bits = 24 ∨ tgaRleHeader.bits = 32) ∧
    0 ≤ tgaRleHeader.width * tgaRleHeader.height ∧
    loadTGA zeroFill tgaRle =
      .image { channels := 3, sizeX := 2, sizeY := 2,
               data := [3, 2, 1, 6, 5, 4, 9, 8, 7, 9, 8, 7] } ∧
    ∃ data s, newBytes zeroFill (toInt (tgaRleHeader.bits.tdiv 8 * tgaRleHeader.width *
        tgaRleHeader.height)) = some data ∧
      rleRun tgaRle tgaRleHeader data = some s ∧
      [3, 2, 1, 6, 5, 4, 9, 8, 7, 9, 8, 7] = s.data ∧
      tgaRleHeader.width * tgaRleHeader.height ≤ s.i ∧
      s.i ≤ tgaRleHeader.width * tgaRleHeader.height + 127 ∧
      (s.colorsRead ≤ data.length → s.i = tgaRleHeader.width * tgaRleHeader.height) :=
  ⟨by decide, by decide, by decide, by decide, by decide,
    loadTGA_rle_pixels_produced zeroFill tgaRle tgaRleHeader
      { channels := 3, sizeX := 2, sizeY := 2, data := [3, 2, 1, 6, 5, 4, 9, 8, 7, 9, 8, 7] }
      (by decide) (by decide) (by decide) (by decide) (by decide)⟩

/-- C5 fails on `rleOver`, a 1x1 RLE file whose packet is a run of two pixels: `loadTGA`
returns an image, and the RLE loop stops with 2 pixels produced, one more than
`width * height = 1`. It fails on `rleWrap` as well, a 32-bit RLE header of width -32768 and
height 32767: the size `stride * height = -4294836224` is 131072 as an `int`, a block of that
size is returned as an image, and the loop has produced no pixel, which is neither
`width * height` nor within 127 of it. -/
theorem loadTGA_rle_overshoot :
    readHeader rleOver = some rleOverHeader ∧ rleOverHeader.imageType = TGA_RLE ∧
    rleOverHeader.bits = 24 ∧ rleOverHeader.width * rleOverHeader.height = 1 ∧
    loadTGA zeroFill rleOver =
      .image { channels := 3, sizeX := 1, sizeY := 1, data := [9, 8, 7] } ∧
    newBytes zeroFill
        (toInt (rleOverHeader.bits.tdiv 8 * rleOverHeader.width * rleOverHeader.height)) =
      some [0, 0, 0] ∧
    rleRun rleOver rleOverHeader [0, 0, 0] =
      some { cur := 22, i := 2, colorsRead := 6, data := [9, 8, 7] } ∧
    readHeader rleWrap = some rleWrapHeader ∧ rleWrapHeader.imageType = TGA_RLE ∧
    rleWrapHeader.bits = 32 ∧ rleWrapHeader.width * rleWrapHeader.height = -1073709056 ∧
    toInt (rleWrapHeader.bits.tdiv 8 * rleWrapHeader.width * rleWrapHeader.height) = 131072 ∧
    ∃ data, (data.length : Int) = 131072 ∧
      rleRun rleWrap rleWrapHeader data =
        some { cur := 18, i := 0, colorsRead := 0, data := data } ∧
      loadTGA zeroFill rleWrap =
        .image { channels := 4, sizeX := -32768, sizeY := 32767, data := data } := by
  refine ⟨by decide, by decide, by decide, by decide, by decide, by decide, by decide,
    by decide, by decide, by decide, by decide, by decide, ?_⟩
  obtain ⟨data, a1, a2⟩ := newBytes_spec zeroFill
    (toInt (rleWrapHeader.bits.tdiv 8 * rleWrapHeader.width * rleWrapHeader.height))
    (by decide)
  exact ⟨data, a2, loadTGA_rle_no_pixels zeroFill rleWrap rleWrapHeader data (by decide)
    (by decide) (by decide) (by decide) a1⟩

/-! ## The claims on convert24to32 and load -/

/-- C8 at the one-pixel image with bytes (1, 2, 3): `convert24to32` obtains a block of 3 bytes and
stores the four bytes (1, 0xFF, 2, 3) at the indices 0 to 3, the 0xFF after the first byte of
the pixel and not after the third; the image itself is left as it was. -/
theorem convert24to32_one_pixel :
    convert24to32 onePixel =
      some { img := onePixel, allocated := 3,
             writes := [(0, 1), (1, 255), (2, 2), (3, 3)] } := by
  decide

/-- C9 at the 1x1 24-bit file `tga24`: `load` passes the three bytes (0, 0, 255) of the flipped
3-channel image to `loadFromMemory`, not a buffer of `1 * 1 * 4` bytes. -/
theorem load_three_channels :
    loadTGA zeroFill tga24 =
      .image { channels := 3, sizeX := 1, sizeY := 1, data := [0, 0, 255] } ∧
    load zeroFill tga24 = .loaded { data := [0, 0, 255], width := 1, height := 1 } := by
  decide


/-! ## The claim on a header with 17 bits per pixel -/

theorem toGLbyte_eq_ten (b : Byte) (h : toGLbyte b = 10) : b = 10 := by
  unfold toGLbyte at h
  have := b.isLt
  apply Fin.ext
  show b.val = 10
  split at h <;> omega

/-- C10, as amended: for every input buffer of at least 17 bytes whose byte 16 (bits per pixel)
is 17 and whose image type byte is not 10, `loadTGA` returns 0, and no read leaves the
buffer. -/
theorem loadTGA_bits17_null (junk : Nat → Byte) (buffer : List Byte)
    (hlen : 17 ≤ buffer.length) (hbits : peek buffer 16 = some 17)
    (hty : peek buffer 2 ≠ some 10) :
    loadTGA junk buffer = .null ∧ loadTGA junk buffer ≠ .outOfBounds := by
  obtain ⟨b0, h0⟩ := peek_some_of_lt buffer 0 (by omega) (by omega)
  obtain ⟨b2, h2⟩ := peek_some_of_lt buffer 2 (by omega) (by omega)
  obtain ⟨b12, h12⟩ := peek_some_of_lt buffer 12 (by omega) (by omega)
  obtain ⟨b13, h13⟩ := peek_some_of_lt buffer 13 (by omega) (by omega)
  obtain ⟨b14, h14⟩ := peek_some_of_lt buffer 14 (by omega) (by omega)
  obtain ⟨b15, h15⟩ := peek_some_of_lt buffer 15 (by omega) (by omega)
  have hne : toGLbyte b2 ≠ TGA_RLE := by
    intro e
    apply hty
    rw [h2, toGLbyte_eq_ten b2 e]
  have e17 : toGLbyte 17 = 17 := by decide
  have key : loadTGA junk buffer = .null := by
    simp only [loadTGA, readHeader, h0, h2, h12, h13, h14, h15, hbits, hne, e17, ne_eq,
      not_false_eq_true, if_true]
    simp
  exact ⟨key, by rw [key]; exact fun e => Loaded.noConfusion e⟩

/-- C10 fails on the empty buffer, where the read of the header leaves the buffer, and on an
RLE header with 17 bits per pixel and a 0x0 image, for which an image of 2 channels is
returned. -/
theorem loadTGA_bits17_counterexample :
    loadTGA zeroFill [] = .outOfBounds ∧
    peek rle17 16 = some 17 ∧
    loadTGA zeroFill rle17 = .image { channels := 2, sizeX := 0, sizeY := 0, data := [] } := by
  decide

/-- The 17-byte buffer `raw17` meets the conditions of the amended C10. -/
theorem loadTGA_bits17_null_witness :
    17 ≤ raw17.length ∧ peek raw17 16 = some 17 ∧ peek raw17 2 ≠ some 10 ∧
    loadTGA zeroFill raw17 = .null ∧ loadTGA zeroFill raw17 ≠ .outOfBounds :=
  ⟨by decide, by decide, by decide,
    loadTGA_bits17_null zeroFill raw17 (by decide) (by decide) (by decide)⟩

/-! ## The claim on Scrollbar::setScrollPosition -/

theorem ceguimax_eq_max (a b : ℚ) : ceguimax a b = max a b := by
  unfold ceguimax
  split
  · rename_i h
    exact (max_eq_right (le_of_lt h)).symm
  · rename_i h
    exact (max_eq_left (not_lt.mp h)).symm

/-- C18: for every scrollbar state and every requested position `p`, after
`setScrollPosition(p)` the stored position is 0 if `p < 0`, is `max_pos` if `p > max_pos` and
is `p` otherwise, where `max_pos = max (documentSize - pageSize) 0`; hence
`0 ≤ position ≤ max_pos`, and `documentSize`, `pageSize`, `stepSize` and `overlapSize` are
unchanged. -/
theorem setScrollPosition_clamps (s : Scrollbar) (p : ℚ) :
    (s.setScrollPosition p).d_position =
      (if p < 0 then 0
       else if max (s.d_documentSize - s.d_pageSize) 0 < p then
         max (s.d_documentSize - s.d_pageSize) 0
       else p) ∧
    0 ≤ (s.setScrollPosition p).d_position ∧
    (s.setScrollPosition p).d_position ≤ max (s.d_documentSize - s.d_pageSize) 0 ∧
    (s.setScrollPosition p).d_documentSize = s.d_documentSize ∧
    (s.setScrollPosition p).d_pageSize = s.d_pageSize ∧
    (s.setScrollPosition p).d_stepSize = s.d_stepSize ∧
    (s.setScrollPosition p).d_overlapSize = s.d_overlapSize := by
  have hm : 0 ≤ max (s.d_documentSize - s.d_pageSize) 0 := le_max_right _ _
  refine ⟨?_, ?_, ?_, rfl, rfl, rfl, rfl⟩ <;>
    simp only [Scrollbar.setScrollPosition, ceguimax_eq_max, ge_iff_le]
  · by_cases h0 : p < 0
    · rw [if_pos h0, if_neg (not_le.mpr h0)]
    · rw [if_neg h0, if_pos (not_lt.mp h0)]
      by_cases h1 : max (s.d_documentSize - s.d_pageSize) 0 < p
      · rw [if_pos h1, if_neg (not_le.mpr h1)]
      · rw [if_neg h1, if_pos (not_lt.mp h1)]
  · split
    · split
      · assumption
      · exact hm
    · exact le_refl 0
  · split
    · split
      · assumption
      · exact le_refl _
    · exact hm

/-! ## The claims on the header checks -/

/-- A byte has one of the values 16, 24, 32 as a signed char exactly when it has it as an
unsigned one. -/
theorem toGLbyte_supported (b : Byte) :
    (toGLbyte b = 16 ∨ toGLbyte b = 24 ∨ toGLbyte b = 32) ↔
      (b.val = 16 ∨ b.val = 24 ∨ b.val = 32) := by
  unfold toGLbyte
  have := b.isLt
  split <;> omega

/-- C11, as amended: for every input with a complete header whose image type is neither 2 nor
10, `loadTGA` takes the input as uncompressed: it returns a decode failure when the bits per
pixel are none of 16, 24 and 32, and it does not return one when they are 16, 24 or 32. -/
theorem loadTGA_other_image_types (junk : Nat → Byte) (buffer : List Byte) (h : Header)
    (hh : readHeader buffer = some h) (_h2 : h.imageType ≠ 2) (h10 : h.imageType ≠ 10) :
    (¬ (h.bits = 16 ∨ h.bits = 24 ∨ h.bits = 32) → loadTGA junk buffer = .null) ∧
    (h.bits = 16 ∨ h.bits = 24 ∨ h.bits = 32 → loadTGA junk buffer ≠ .null) := by
  have key := loadTGA_null_iff junk buffer h hh h10
  exact ⟨fun hb => key.mpr hb, fun hb e => key.mp e hb⟩

/-- The file `tgaType3` meets the conditions of the amended C11. -/
theorem loadTGA_other_image_types_witness :
    readHeader tgaType3 = some tgaType3Header ∧ tgaType3Header.imageType ≠ 2 ∧
    tgaType3Header.imageType ≠ 10 ∧
    (¬ (tgaType3Header.bits = 16 ∨ tgaType3Header.bits = 24 ∨ tgaType3Header.bits = 32) →
      loadTGA zeroFill tgaType3 = .null) ∧
    (tgaType3Header.bits = 16 ∨ tgaType3Header.bits = 24 ∨ tgaType3Header.bits = 32 →
      loadTGA zeroFill tgaType3 ≠ .null) :=
  ⟨by decide, by decide, by decide,
    loadTGA_other_image_types zeroFill tgaType3 tgaType3Header (by decide) (by decide)
      (by decide)⟩

/-- C11 fails on `tgaType3`, a 1x1 24-bit file with image type 3, which is decoded like an
uncompressed file, and on a buffer of three bytes, where the header reads leave the buffer. -/
theorem loadTGA_type3_decoded :
    peek tgaType3 2 = some 3 ∧
    loadTGA zeroFill tgaType3 =
      .image { channels := 3, sizeX := 1, sizeY := 1, data := [0, 0, 255] } ∧
    loadTGA zeroFill [0, 0, 3] = .outOfBounds := by
  decide

/-- C14 at two RLE inputs with 16 bits per pixel: on the 1x1 file `rle16` the code reads
`pColors[2]` of an array of 2 bytes, and on the 0x0 header `rle16Empty` it returns an image
with 2 channels; in neither case 0 is returned. -/
theorem loadTGA_rle16 :
    loadTGA zeroFill rle16 = .outOfBounds ∧
    loadTGA zeroFill rle16Empty =
      .image { channels := 2, sizeX := 0, sizeY := 0, data := [] } := by
  decide

/-- C15: for every input with a complete header and an image type other than RLE, `loadTGA`
returns a decode failure (0) if and only if the bits per pixel are not one of 16, 24, 32;
the bits per pixel are the byte at offset 16. -/
theorem loadTGA_failure_iff_bits (junk : Nat → Byte) (buffer : List Byte) (h : Header)
    (hh : readHeader buffer = some h) (ht : h.imageType ≠ TGA_RLE) :
    (loadTGA junk buffer = .null ↔ ¬ (h.bits = 16 ∨ h.bits = 24 ∨ h.bits = 32)) ∧
    ∃ b : Byte, peek buffer 16 = some b ∧
      (loadTGA junk buffer = .null ↔ ¬ (b.val = 16 ∨ b.val = 24 ∨ b.val = 32)) := by
  have key := loadTGA_null_iff junk buffer h hh ht
  obtain ⟨b0, b2, w0, w1, h0, h1, b16, _, _, _, _, _, _, e16, rfl⟩ :=
    readHeader_eq_some buffer h hh
  refine ⟨key, b16, e16, ?_⟩
  rw [key]
  exact not_congr (toGLbyte_supported b16)

/-- The buffer `raw17` meets the conditions of C15. -/
theorem loadTGA_failure_iff_bits_witness :
    readHeader raw17 = some raw17Header ∧ raw17Header.imageType ≠ TGA_RLE ∧
    (loadTGA zeroFill raw17 = .null ↔
      ¬ (raw17Header.bits = 16 ∨ raw17Header.bits = 24 ∨ raw17Header.bits = 32)) ∧
    ∃ b : Byte, peek raw17 16 = some b ∧
      (loadTGA zeroFill raw17 = .null ↔ ¬ (b.val = 16 ∨ b.val = 24 ∨ b.val = 32)) :=
  ⟨by decide, by decide,
    loadTGA_failure_iff_bits zeroFill raw17 raw17Header (by decide) (by decide)⟩

/-- C16, as amended: for every input on which `loadTGA` returns an image, `sizeX` and `sizeY`
are the width and height of the header, signed 16-bit values that may be zero or negative,
the data holds as many bytes as the `int` value of `sizeX * sizeY * channels`, which is
exactly `sizeX * sizeY * channels` bytes when that product lies between 0 and 2^31 - 1, and
`channels` is 3 or 4 when the input is uncompressed or has 24 or 32 bits per pixel. -/
theorem loadTGA_image_shape (junk : Nat → Byte) (buffer : List Byte) (img : ImageTGA)
    (hret : loadTGA junk buffer = .image img) :
    ∃ h, readHeader buffer = some h ∧ img.sizeX = h.width ∧ img.sizeY = h.height ∧
      (img.data.length : Int) = toInt (img.sizeX * img.sizeY * img.channels) ∧
      (0 ≤ img.sizeX * img.sizeY * img.channels →
        img.sizeX * img.sizeY * img.channels ≤ 2147483647 →
        (img.data.length : Int) = img.sizeX * img.sizeY * img.channels) ∧
      (h.imageType ≠ TGA_RLE ∨ h.bits = 24 ∨ h.bits = 32 →
        img.channels = 3 ∨ img.channels = 4) := by
  suffices key : ∃ h, readHeader buffer = some h ∧ img.sizeX = h.width ∧
      img.sizeY = h.height ∧
      (img.data.length : Int) = toInt (img.sizeX * img.sizeY * img.channels) ∧
      (h.imageType ≠ TGA_RLE ∨ h.bits = 24 ∨ h.bits = 32 →
        img.channels = 3 ∨ img.channels = 4) by
    obtain ⟨h, k1, k2, k3, k4, k5⟩ := key
    exact ⟨h, k1, k2, k3, k4,
      fun h0 h1 => by rw [k4]; exact toInt_of_fits _ (by omega) h1, k5⟩
  unfold loadTGA at hret
  split at hret
  · exact Loaded.noConfusion hret
  · rename_i h hh
    refine ⟨h, hh, ?_⟩
    have t24 : (24 : Int).tdiv 8 = 3 := by decide
    have t32 : (32 : Int).tdiv 8 = 4 := by decide
    split at hret
    · split at hret
      · rename_i hb
        split at hret
        · exact Loaded.noConfusion hret
        · rename_i data hd
          split at hret
          · exact Loaded.noConfusion hret
          · rename_i data1 hl
            injection hret with e
            subst e
            have l1 := loadLines_length _ _ _ _ _ _ _ _ hl
            have l2 := newBytes_length _ _ _ hd
            refine ⟨rfl, rfl, ?_, fun _ => ?_⟩
            · show (data1.length : Int) = toInt (h.width * h.height * h.bits.tdiv 8)
              rw [l1, l2]; congr 1; ring
            · show h.bits.tdiv 8 = 3 ∨ h.bits.tdiv 8 = 4
              rcases hb with e | e <;> rw [e] <;> decide
      · split at hret
        · split at hret
          · exact Loaded.noConfusion hret
          · rename_i data hd
            split at hret
            · exact Loaded.noConfusion hret
            · rename_i data1 hl
              injection hret with e
              subst e
              have l1 := load16_length _ _ _ _ _ _ hl
              have l2 := newBytes_length _ _ _ hd
              refine ⟨rfl, rfl, ?_, fun _ => Or.inl rfl⟩
              show (data1.length : Int) = toInt (h.width * h.height * 3)
              rw [l1, l2]; congr 1; ring
        · exact Loaded.noConfusion hret
    · rename_i ht
      split at hret
      · exact Loaded.noConfusion hret
      · rename_i data hd
        split at hret
        · exact Loaded.noConfusion hret
        · split at hret
          · exact Loaded.noConfusion hret
          · rename_i s hs
            injection hret with e
            subst e
            have l1 := rleLoop_length _ _ _ _ _ _ _ hs
            have l2 := newBytes_length _ _ _ hd
            refine ⟨rfl, rfl, ?_, fun hb => ?_⟩
            · show (s.data.length : Int) = toInt (h.width * h.height * h.bits.tdiv 8)
              simp only [] at l1
              rw [l1, l2]; congr 1; ring
            · show h.bits.tdiv 8 = 3 ∨ h.bits.tdiv 8 = 4
              rcases hb with e | e | e
              · exact absurd (not_not.mp ht) e
              · rw [e]; decide
              · rw [e]; decide

/-- The file `tga24` meets the condition of the amended C16. -/
theorem loadTGA_image_shape_witness :
    loadTGA zeroFill tga24 =
      .image { channels := 3, sizeX := 1, sizeY := 1, data := [0, 0, 255] } ∧
    ∃ h, readHeader tga24 = some h ∧ (1 : Int) = h.width ∧ (1 : Int) = h.height ∧
      (([0, 0, 255] : List Byte).length : Int) = toInt (1 * 1 * 3) ∧
      ((0 : Int) ≤ 1 * 1 * 3 → (1 : Int) * 1 * 3 ≤ 2147483647 →
        (([0, 0, 255] : List Byte).length : Int) = 1 * 1 * 3) ∧
      (h.imageType ≠ TGA_RLE ∨ h.bits = 24 ∨ h.bits = 32 → (3 : Int) = 3 ∨ (3 : Int) = 4) :=
  ⟨by decide,
    loadTGA_image_shape zeroFill tga24
      { channels := 3, sizeX := 1, sizeY := 1, data := [0, 0, 255] } (by decide)⟩

/-- C16 fails on `tgaEmpty`, whose image has width 0 and height 0, on `tgaNegative`, whose
image has width -1 and height -1 and three bytes of data that are never written, on
`tgaMin32`, whose image has width -32768, height -32768 and 4 channels and no byte of data,
the size 2^32 being 0 as an `int`, and on `rle17`, whose image has 2 channels. -/
theorem loadTGA_image_not_positive :
    loadTGA zeroFill tgaEmpty =
      .image { channels := 3, sizeX := 0, sizeY := 0, data := [] } ∧
    loadTGA zeroFill tgaNegative =
      .image { channels := 3, sizeX := -1, sizeY := -1, data := [0, 0, 0] } ∧
    loadTGA zeroFill tgaMin32 =
      .image { channels := 4, sizeX := -32768, sizeY := -32768, data := [] } ∧
    (-32768 : Int) * -32768 * 4 = 4294967296 ∧ toInt ((-32768 : Int) * -32768 * 4) = 0 ∧
    loadTGA zeroFill rle17 = .image { channels := 2, sizeX := 0, sizeY := 0, data := [] } := by
  decide

/-! ## The claim on the stores of convert24to32 -/

/-- Three iterations of the loop of `convert24to32` from a source index that is a multiple of
3: four stores, the second of them 0xFF. -/
theorem convert24to32Loop_pixel (src : List Byte) (n : Nat) (m : Nat) (newI : Int)
    (writes : List (Int × Byte)) (a b c : Byte) (ha : src[3 * m]? = some a)
    (hb : src[3 * m + 1]? = some b) (hc : src[3 * m + 2]? = some c) :
    convert24to32Loop src (n + 3) ((3 * m : Nat) : Int) newI writes =
      convert24to32Loop src n ((3 * (m + 1) : Nat) : Int) (newI + 4)
        (writes ++ [(newI, a), (newI + 1, 0xff), (newI + 2, b), (newI + 3, c)]) := by
  have pa : peek src ((3 * m : Nat) : Int) = some a := by rw [peek_natCast]; exact ha
  have pb : peek src (((3 * m : Nat) : Int) + 1) = some b := by
    have : (((3 * m : Nat) : Int) + 1) = ((3 * m + 1 : Nat) : Int) := by push_cast; ring
    rw [this, peek_natCast]; exact hb
  have pc : peek src (((3 * m : Nat) : Int) + 1 + 1) = some c := by
    have : (((3 * m : Nat) : Int) + 1 + 1) = ((3 * m + 2 : Nat) : Int) := by push_cast; ring
    rw [this, peek_natCast]; exact hc
  have t0 : (0 : Int) = Int.tmod ((3 * m : Nat) : Int) 3 := by
    rw [Int.tmod_eq_emod (by omega) (by decide)]; omega
  have t1 : ¬ (0 : Int) = Int.tmod (((3 * m : Nat) : Int) + 1) 3 := by
    rw [Int.tmod_eq_emod (by omega) (by decide)]; omega
  have t2 : ¬ (0 : Int) = Int.tmod (((3 * m : Nat) : Int) + 1 + 1) 3 := by
    rw [Int.tmod_eq_emod (by omega) (by decide)]; omega
  have e3 : ((3 * m : Nat) : Int) + 1 + 1 + 1 = ((3 * (m + 1) : Nat) : Int) := by
    push_cast; ring
  have e4 : newI + 2 + 1 + 1 = newI + 4 := by ring
  have e5 : newI + 2 + 1 = newI + 3 := by ring
  have e6 : newI + 3 + 1 = newI + 4 := by ring
  rw [show n + 3 = (n + 1 + 1) + 1 from rfl]
  simp only [convert24to32Loop, pa, pb, pc, if_pos t0, if_neg t1, if_neg t2, e3, e4, e5, e6,
    List.append_assoc, List.cons_append, List.nil_append]

/-- The loop of `convert24to32` over `N` pixels, from pixel `m`: the stores made before are
kept, and pixel `k` adds the stores of its first byte, of 0xFF, and of its second and third
bytes, to the indices `4 * k` to `4 * k + 3`. -/
theorem convert24to32Loop_spec (src : List Byte) (N m : Nat) (writes : List (Int × Byte))
    (hsrc : 3 * (m + N) ≤ src.length) (hw : writes.length = 4 * m) :
    ∃ w, convert24to32Loop src (3 * N) ((3 * m : Nat) : Int) ((4 * m : Nat) : Int) writes =
        some w ∧ w.length = 4 * (m + N) ∧ (∀ j, j < 4 * m → w[j]? = writes[j]?) ∧
      ∀ k, m ≤ k → k < m + N →
        ∃ a b c : Byte, src[3 * k]? = some a ∧ src[3 * k + 1]? = some b ∧
          src[3 * k + 2]? = some c ∧
          w[4 * k]? = some (((4 * k : Nat) : Int), a) ∧
          w[4 * k + 1]? = some (((4 * k : Nat) : Int) + 1, 0xff) ∧
          w[4 * k + 2]? = some (((4 * k : Nat) : Int) + 2, b) ∧
          w[4 * k + 3]? = some (((4 * k : Nat) : Int) + 3, c) := by
  induction N generalizing m writes with
  | zero =>
    refine ⟨writes, rfl, by simpa using hw, fun _ _ => rfl, ?_⟩
    intro k h1 h2
    omega
  | succ N ih =>
    obtain ⟨a, ha⟩ : ∃ a, src[3 * m]? = some a :=
      ⟨_, List.getElem?_eq_getElem (by omega)⟩
    obtain ⟨b, hb⟩ : ∃ b, src[3 * m + 1]? = some b :=
      ⟨_, List.getElem?_eq_getElem (by omega)⟩
    obtain ⟨c, hc⟩ : ∃ c, src[3 * m + 2]? = some c :=
      ⟨_, List.getElem?_eq_getElem (by omega)⟩
    obtain ⟨w, h1, h2, h3, h4⟩ := ih (m + 1)
      (writes ++ [(((4 * m : Nat) : Int), a), (((4 * m : Nat) : Int) + 1, 0xff),
        (((4 * m : Nat) : Int) + 2, b), (((4 * m : Nat) : Int) + 3, c)])
      (by omega) (by simp [hw]; omega)
    have e0 : 3 * (N + 1) = 3 * N + 3 := by ring
    have e1 : ((4 * m : Nat) : Int) + 4 = ((4 * (m + 1) : Nat) : Int) := by push_cast; ring
    refine ⟨w, ?_, by omega, ?_, ?_⟩
    · rw [e0, convert24to32Loop_pixel src (3 * N) m _ writes _ _ _ ha hb hc, e1]
      exact h1
    · intro j hj
      rw [h3 j (by omega), List.getElem?_append_left (by omega)]
    · intro k hk1 hk2
      by_cases hk : k = m
      · subst hk
        refine ⟨_, _, _, ha, hb, hc, ?_, ?_, ?_, ?_⟩
        · rw [h3 _ (by omega), List.getElem?_append_right (by omega)]
          simp [hw]
        · rw [h3 _ (by omega), List.getElem?_append_right (by omega)]
          simp [hw]
        · rw [h3 _ (by omega), List.getElem?_append_right (by omega)]
          simp [hw]
        · rw [h3 _ (by omega), List.getElem?_append_right (by omega)]
          simp [hw]
      · exact h4 k (by omega) (by omega)

/-- C19: in `convert24to32` as written, for an image whose buffer of
`sizeX * sizeY * channels = 3 * N` bytes holds `N` pixels, exactly `4 * N` bytes are stored,
to the indices 0 to `4 * N - 1` in order, and the four stores of pixel `k` are `in[3k]`, 0xFF,
`in[3k+1]`, `in[3k+2]`: the 0xFF follows the source byte whose index is a multiple of 3, once
per pixel. The image is left as it was. -/
theorem convert24to32_writes (img : ImageTGA) (N : Nat)
    (hsize : img.sizeX * img.sizeY * img.channels = 3 * N) (hlen : img.data.length = 3 * N) :
    ∃ c, convert24to32 img = some c ∧ c.img = img ∧ c.writes.length = 4 * N ∧
      ∀ k, k < N →
        ∃ a b d : Byte, img.data[3 * k]? = some a ∧ img.data[3 * k + 1]? = some b ∧
          img.data[3 * k + 2]? = some d ∧
          c.writes[4 * k]? = some (((4 * k : Nat) : Int), a) ∧
          c.writes[4 * k + 1]? = some (((4 * k : Nat) : Int) + 1, 0xff) ∧
          c.writes[4 * k + 2]? = some (((4 * k : Nat) : Int) + 2, b) ∧
          c.writes[4 * k + 3]? = some (((4 * k : Nat) : Int) + 3, d) := by
  obtain ⟨w, h1, h2, _, h4⟩ := convert24to32Loop_spec img.data N 0 [] (by omega) rfl
  have hn : (img.sizeX * img.sizeY * img.channels).toNat = 3 * N := by rw [hsize]; omega
  have h0 : 0 ≤ img.sizeX * img.sizeY * img.channels := by rw [hsize]; omega
  refine ⟨{ img := img, allocated := img.sizeX * img.sizeY * img.channels, writes := w }, ?_,
    rfl, by simpa using h2, ?_⟩
  · simp only [convert24to32, h0, if_true, hn]
    simp only [Nat.mul_zero, Nat.cast_zero] at h1
    rw [h1]
  · intro k hk
    exact h4 k (Nat.zero_le k) (by omega)

/-- The one-pixel image meets the conditions of C19 with `N = 1`. -/
theorem convert24to32_writes_witness :
    onePixel.sizeX * onePixel.sizeY * onePixel.channels = 3 * (1 : Nat) ∧
    onePixel.data.length = 3 * 1 ∧
    ∃ c, convert24to32 onePixel = some c ∧ c.img = onePixel ∧ c.writes.length = 4 * 1 ∧
      ∀ k, k < 1 →
        ∃ a b d : Byte, onePixel.data[3 * k]? = some a ∧ onePixel.data[3 * k + 1]? = some b ∧
          onePixel.data[3 * k + 2]? = some d ∧
          c.writes[4 * k]? = some (((4 * k : Nat) : Int), a) ∧
          c.writes[4 * k + 1]? = some (((4 * k : Nat) : Int) + 1, 0xff) ∧
          c.writes[4 * k + 2]? = some (((4 * k : Nat) : Int) + 2, b) ∧
          c.writes[4 * k + 3]? = some (((4 * k : Nat) : Int) + 3, d) :=
  ⟨by decide, by decide, convert24to32_writes onePixel 1 (by decide) (by decide)⟩

/-! ## The claim on the termination of the RLE loop -/

/-- Whatever the fuel, the loop makes at most `pixels - i` iterations. -/
theorem rlePackets_le (buffer : List Byte) (bits c pixels : Int) (fuel : Nat) (s : RleState)
    (k : Nat) (h : rlePackets buffer bits c pixels fuel s = some k) :
    k ≤ (pixels - s.i).toNat := by
  induction fuel generalizing s k with
  | zero =>
    simp only [rlePackets, Option.some.injEq] at h
    omega
  | succ fuel ih =>
    simp only [rlePackets] at h
    split at h
    · split at h
      · exact Option.noConfusion h
      · rename_i s1 hp
        split at h
        · exact Option.noConfusion h
        · rename_i k1 hk
          simp only [Option.some.injEq] at h
          have := ih s1 k1 hk
          have := (rlePacket_i _ _ _ _ _ hp).1
          omega
    · simp only [Option.some.injEq] at h
      omega

/-- Fuel beyond `pixels - i` is not used by the loop. -/
theorem rleLoop_fuel (buffer : List Byte) (bits c pixels : Int) (fuel extra : Nat)
    (s : RleState) (hf : (pixels - s.i).toNat ≤ fuel) :
    rleLoop buffer bits c pixels (fuel + extra) s = rleLoop buffer bits c pixels fuel s := by
  induction fuel generalizing s with
  | zero =>
    have hge : ¬ s.i < pixels := by omega
    cases extra with
    | zero => rfl
    | succ e =>
      rw [Nat.zero_add]
      simp only [rleLoop, hge, if_false]
  | succ fuel ih =>
    rw [show fuel + 1 + extra = (fuel + extra) + 1 by omega]
    simp only [rleLoop]
    split
    · split
      · rfl
      · rename_i s1 hp
        have := (rlePacket_i _ _ _ _ _ hp).1
        exact ih s1 (by omega)
    · rfl

/-- C20: for every control byte the 8-bit counter of a packet takes a value from 1 to 128 and
one iteration of the packet loop produces at least 1 and at most 128 pixels; so the RLE loop,
on a stream that can be read, stops after at most `pixels - i` packets (`width * height` from
the start), with `i` at or above `pixels`: fuel beyond that number is never used. -/
theorem rleLoop_terminates (buffer : List Byte) (bits c pixels : Int) (s : RleState) :
    (∀ rleID : Byte,
      (rleID.val < 128 → 1 ≤ (rleID + 1).val ∧ (rleID + 1).val ≤ 128) ∧
      (¬ rleID.val < 128 → 1 ≤ (rleID - 127).val ∧ (rleID - 127).val ≤ 128)) ∧
    (∀ s', rlePacket buffer bits c s = some s' → s.i + 1 ≤ s'.i ∧ s'.i ≤ s.i + 128) ∧
    (∀ fuel k, rlePackets buffer bits c pixels fuel s = some k → k ≤ (pixels - s.i).toNat) ∧
    (∀ extra, rleLoop buffer bits c pixels ((pixels - s.i).toNat + extra) s =
      rleLoop buffer bits c pixels (pixels - s.i).toNat s) ∧
    (∀ s', rleLoop buffer bits c pixels (pixels - s.i).toNat s = some s' → pixels ≤ s'.i) := by
  refine ⟨?_, ?_, ?_, ?_, ?_⟩
  · intro rleID
    have := rleID.isLt
    constructor
    · intro h
      rw [literal_count rleID h]
      omega
    · intro h
      rw [repeat_count rleID (by omega)]
      omega
  · intro s' h
    exact rlePacket_i _ _ _ _ _ h
  · intro fuel k h
    exact rlePackets_le _ _ _ _ _ _ _ h
  · intro extra
    exact rleLoop_fuel _ _ _ _ _ _ _ (le_refl _)
  · intro s' h
    obtain ⟨q1, q2⟩ := rleLoop_i _ _ _ _ _ _ _ h (by omega)
    by_cases hlt : s.i < pixels
    · exact (q1 hlt).1
    · rw [q2 (by omega)]
      omega

/-- The loop on `tgaRle`, a 2x2 image, makes 2 packets, not more than the 4 pixels. -/
theorem rleLoop_terminates_witness :
    rlePackets tgaRle 24 3 4 4 rleStart = some 2 ∧
    rlePackets tgaRle 24 3 4 9 rleStart = some 2 ∧
    (rleLoop tgaRle 24 3 4 4 rleStart).map (fun s => s.i) = some 4 ∧
    ((∀ rleID : Byte,
      (rleID.val < 128 → 1 ≤ (rleID + 1).val ∧ (rleID + 1).val ≤ 128) ∧
      (¬ rleID.val < 128 → 1 ≤ (rleID - 127).val ∧ (rleID - 127).val ≤ 128)) ∧
    (∀ s', rlePacket tgaRle 24 3 rleStart = some s' →
      rleStart.i + 1 ≤ s'.i ∧ s'.i ≤ rleStart.i + 128) ∧
    (∀ fuel k, rlePackets tgaRle 24 3 4 fuel rleStart = some k →
      k ≤ ((4 : Int) - rleStart.i).toNat) ∧
    (∀ extra, rleLoop tgaRle 24 3 4 (((4 : Int) - rleStart.i).toNat + extra) rleStart =
      rleLoop tgaRle 24 3 4 ((4 : Int) - rleStart.i).toNat rleStart) ∧
    (∀ s', rleLoop tgaRle 24 3 4 ((4 : Int) - rleStart.i).toNat rleStart = some s' →
      4 ≤ s'.i)) :=
  ⟨by decide, by decide, by decide, rleLoop_terminates tgaRle 24 3 4 rleStart⟩

/-! ## The claim on short buffers -/

set_option maxRecDepth 8000 in
/-- C17 on `tgaId255Full`, a 1x1 24-bit file of 276 bytes with idLength 255, whose pixel
(1, 2, 3) follows the identification field at the offset `18 + 255`: byte 0 is read into a
signed char, `length` is -1, the pointer is moved by `length + 1 = 0` and the pixel is read at
the offsets 17 to 19, the last byte of the header and the first two bytes of the
identification field. On `tgaId255`, a buffer of 20 bytes with idLength 255, the pixel is read
at the offsets 17 to 19 as well and an image is returned, while the offset `18 + 255` is not
in the buffer. -/
theorem loadTGA_idLength_signed :
    peek tgaId255Full 0 = some 255 ∧ tgaId255Full.length = 18 + 255 + 3 ∧
    readHeader tgaId255Full =
      some { length := -1, imageType := 2, width := 1, height := 1, bits := 24 } ∧
    peek tgaId255Full (18 + 255) = some 1 ∧ peek tgaId255Full (18 + 255 + 1) = some 2 ∧
    peek tgaId255Full (18 + 255 + 2) = some 3 ∧
    peek tgaId255Full 17 = some 0 ∧ peek tgaId255Full 18 = some 7 ∧
    peek tgaId255Full 19 = some 8 ∧
    loadTGA zeroFill tgaId255Full =
      .image { channels := 3, sizeX := 1, sizeY := 1, data := [8, 7, 0] } ∧
    peek tgaId255 0 = some 255 ∧ tgaId255.length = 20 ∧
    peek tgaId255 17 = some 9 ∧ peek tgaId255 18 = some 1 ∧ peek tgaId255 19 = some 2 ∧
    peek tgaId255 (18 + 255) = none ∧
    loadTGA zeroFill tgaId255 =
      .image { channels := 3, sizeX := 1, sizeY := 1, data := [2, 1, 9] } := by
  decide

/-! ## The claim on the reachable states of the scrollbar -/

theorem setScrollPosition_nonneg (s : Scrollbar) (p : ℚ) :
    0 ≤ (s.setScrollPosition p).d_position := by
  have hm : 0 ≤ ceguimax (s.d_documentSize - s.d_pageSize) 0 := by
    rw [ceguimax_eq_max]; exact le_max_right _ _
  simp only [Scrollbar.setScrollPosition, ge_iff_le]
  split
  · split
    · assumption
    · exact hm
  · exact le_refl 0

theorem setScrollPosition_le (s : Scrollbar) (p : ℚ) :
    (s.setScrollPosition p).d_position ≤
      max ((s.setScrollPosition p).d_documentSize - (s.setScrollPosition p).d_pageSize) 0 := by
  have hm : 0 ≤ max (s.d_documentSize - s.d_pageSize) 0 := le_max_right _ _
  simp only [Scrollbar.setScrollPosition, ceguimax_eq_max, ge_iff_le]
  split
  · split
    · assumption
    · exact le_refl _
  · exact hm

/-- Every call keeps the position at or above 0. -/
theorem call_nonneg (s : Scrollbar) (c : ScrollbarCall) (h : 0 ≤ s.d_position) :
    0 ≤ (s.call c).d_position := by
  cases c with
  | setDocumentSize v => simp only [Scrollbar.call, Scrollbar.setDocumentSize]; split <;> exact h
  | setPageSize v => simp only [Scrollbar.call, Scrollbar.setPageSize]; split <;> exact h
  | setStepSize v => simp only [Scrollbar.call, Scrollbar.setStepSize]; split <;> exact h
  | setOverlapSize v => simp only [Scrollbar.call, Scrollbar.setOverlapSize]; split <;> exact h
  | setScrollPosition v => exact setScrollPosition_nonneg s v

theorem calls_nonneg (s : Scrollbar) (cs : List ScrollbarCall) (h : 0 ≤ s.d_position) :
    0 ≤ (s.calls cs).d_position := by
  induction cs generalizing s with
  | nil => exact h
  | cons c cs ih => exact ih (s.call c) (call_nonneg s c h)

/-- A call that assigns neither size keeps the position within the range. -/
theorem call_keeps_range (s : Scrollbar) (c : ScrollbarCall) (hc : c.keepsRange = true)
    (h : s.d_position ≤ max (s.d_documentSize - s.d_pageSize) 0) :
    (s.call c).d_position ≤ max ((s.call c).d_documentSize - (s.call c).d_pageSize) 0 := by
  cases c with
  | setDocumentSize v => exact Bool.noConfusion hc
  | setPageSize v => exact Bool.noConfusion hc
  | setStepSize v => simp only [Scrollbar.call, Scrollbar.setStepSize]; split <;> exact h
  | setOverlapSize v => simp only [Scrollbar.call, Scrollbar.setOverlapSize]; split <;> exact h
  | setScrollPosition v => exact setScrollPosition_le s v

theorem calls_keep_range (s : Scrollbar) (cs : List ScrollbarCall)
    (hc : ∀ c ∈ cs, c.keepsRange = true)
    (h : s.d_position ≤ max (s.d_documentSize - s.d_pageSize) 0) :
    (s.calls cs).d_position ≤ max ((s.calls cs).d_documentSize - (s.calls cs).d_pageSize) 0 := by
  induction cs generalizing s with
  | nil => exact h
  | cons c cs ih =>
    exact ih (s.call c) (fun d hd => hc d (List.mem_cons_of_mem c hd))
      (call_keeps_range s c (hc c (List.mem_cons_self c cs)) h)

/-- C23, as amended: in every scrollbar state reached from the constructor's initial state by
any sequence of calls of the five setters, the stored position is at least 0; and it is at most
`max (documentSize - pageSize) 0` in every state reached by a sequence in which no call of
`setDocumentSize` or `setPageSize` comes after the last call of `setScrollPosition`. -/
theorem scrollbar_reachable (cs : List ScrollbarCall) :
    0 ≤ (Scrollbar.initial.calls cs).d_position ∧
    ∀ (p : ℚ) (tail : List ScrollbarCall), (∀ c ∈ tail, c.keepsRange = true) →
      (Scrollbar.initial.calls (cs ++ ScrollbarCall.setScrollPosition p :: tail)).d_position ≤
        max ((Scrollbar.initial.calls
              (cs ++ ScrollbarCall.setScrollPosition p :: tail)).d_documentSize -
            (Scrollbar.initial.calls
              (cs ++ ScrollbarCall.setScrollPosition p :: tail)).d_pageSize) 0 := by
  refine ⟨calls_nonneg _ cs (le_refl 0), ?_⟩
  intro p tail ht
  have e : Scrollbar.initial.calls (cs ++ ScrollbarCall.setScrollPosition p :: tail) =
      ((Scrollbar.initial.calls cs).setScrollPosition p).calls tail := by
    simp only [Scrollbar.calls, List.foldl_append, List.foldl_cons, Scrollbar.call]
  rw [e]
  exact calls_keep_range _ tail ht (setScrollPosition_le _ p)

/-- The sequence `setDocumentSize 4`, `setScrollPosition 9`, `setStepSize 2` meets the condition
of the amended C23. -/
theorem scrollbar_reachable_witness :
    (∀ c ∈ [ScrollbarCall.setStepSize 2], c.keepsRange = true) ∧
    0 ≤ (Scrollbar.initial.calls [ScrollbarCall.setDocumentSize 4]).d_position ∧
    (Scrollbar.initial.calls ([ScrollbarCall.setDocumentSize 4] ++
        ScrollbarCall.setScrollPosition 9 :: [ScrollbarCall.setStepSize 2])).d_position ≤
      max ((Scrollbar.initial.calls ([ScrollbarCall.setDocumentSize 4] ++
            ScrollbarCall.setScrollPosition 9 :: [ScrollbarCall.setStepSize 2])).d_documentSize -
          (Scrollbar.initial.calls ([ScrollbarCall.setDocumentSize 4] ++
            ScrollbarCall.setScrollPosition 9 :: [ScrollbarCall.setStepSize 2])).d_pageSize) 0 :=
  ⟨by simp [ScrollbarCall.keepsRange],
    (scrollbar_reachable [ScrollbarCall.setDocumentSize 4]).1,
    (scrollbar_reachable [ScrollbarCall.setDocumentSize 4]).2 9 [ScrollbarCall.setStepSize 2]
      (by simp [ScrollbarCall.keepsRange])⟩

/-- C23 fails after `setScrollPosition 1` followed by `setDocumentSize (1/2)`: the position
stays 1, above `max (1/2 - 0) 0 = 1/2`. -/
theorem scrollbar_position_above_range :
    (Scrollbar.initial.calls
      [ScrollbarCall.setScrollPosition 1, ScrollbarCall.setDocumentSize (1 / 2)]).d_position = 1 ∧
    max ((Scrollbar.initial.calls
          [ScrollbarCall.setScrollPosition 1,
            ScrollbarCall.setDocumentSize (1 / 2)]).d_documentSize -
        (Scrollbar.initial.calls
          [ScrollbarCall.setScrollPosition 1,
            ScrollbarCall.setDocumentSize (1 / 2)]).d_pageSize) 0 = 1 / 2 ∧
    ¬ ((Scrollbar.initial.calls
        [ScrollbarCall.setScrollPosition 1, ScrollbarCall.setDocumentSize (1 / 2)]).d_position ≤
      max ((Scrollbar.initial.calls
          [ScrollbarCall.setScrollPosition 1,
            ScrollbarCall.setDocumentSize (1 / 2)]).d_documentSize -
        (Scrollbar.initial.calls
          [ScrollbarCall.setScrollPosition 1,
            ScrollbarCall.setDocumentSize (1 / 2)]).d_pageSize) 0) := by
  norm_num [Scrollbar.calls, Scrollbar.call, Scrollbar.initial, Scrollbar.setScrollPosition,
    Scrollbar.setDocumentSize, ceguimax]

/-! ## The claim on the stores of the uncompressed branches -/

theorem memcpyW_data (src : List Byte) (n : Nat) (d s : Int) (dst : List Byte)
    (log : List Int) : (memcpyW src n d s dst log).2 = memcpy src n d s dst := by
  induction n generalizing d s dst log with
  | zero => rfl
  | succ n ih =>
    simp only [memcpyW, memcpy]
    cases peek src s with
    | none => rfl
    | some v => exact ih _ _ _ _

theorem memcpyW_log (src : List Byte) (n : Nat) (d s : Int) (dst : List Byte)
    (log : List Int) (idx : Int) (h : idx ∈ (memcpyW src n d s dst log).1) :
    idx ∈ log ∨ (d ≤ idx ∧ idx < d + n) := by
  induction n generalizing d s dst log with
  | zero => exact Or.inl h
  | succ n ih =>
    simp only [memcpyW] at h
    split at h
    · exact Or.inl h
    · rcases ih _ _ _ _ h with h1 | h1
      · rcases List.mem_append.mp h1 with h2 | h2
        · exact Or.inl h2
        · right
          simp only [List.mem_singleton] at h2
          push_cast
          omega
      · right
        push_cast
        omega

theorem swapLineW_data (pLine stride channels : Int) (fuel : Nat) (i : Int)
    (data : List Byte) (log : List Int) :
    (swapLineW pLine stride channels fuel i data log).2 =
      swapLine pLine stride channels fuel i data := by
  induction fuel generalizing i data log with
  | zero => rfl
  | succ fuel ih =>
    simp only [swapLineW, swapLine]
    split
    · cases peek data (pLine + i) with
      | none => rfl
      | some temp =>
        cases peek data (pLine + (i + 2)) with
        | none => rfl
        | some v => exact ih _ _ _
    · rfl

theorem swapLineW_log (pLine S c : Int) (fuel : Nat) (i : Int) (data : List Byte)
    (log : List Int) (hc : c = 3 ∨ c = 4) (hi : 0 ≤ i) (hic : i % c = 0) (hSc : S % c = 0)
    (idx : Int) (h : idx ∈ (swapLineW pLine S c fuel i data log).1) :
    idx ∈ log ∨ (pLine + i ≤ idx ∧ idx < pLine + S) := by
  induction fuel generalizing i data log with
  | zero => exact Or.inl h
  | succ fuel ih =>
    simp only [swapLineW] at h
    split at h
    · rename_i hlt
      split at h
      · rcases ih (i + c) _ _ (by rcases hc with rfl | rfl <;> omega)
          (by rcases hc with rfl | rfl <;> omega) h with h1 | h1
        · rcases List.mem_append.mp h1 with h2 | h2
          · exact Or.inl h2
          · right
            simp only [List.mem_cons, List.mem_singleton, List.not_mem_nil, or_false] at h2
            rcases hc with rfl | rfl <;> omega
        · right
          rcases hc with rfl | rfl <;> omega
      · exact Or.inl h
    · exact Or.inl h

theorem loadLinesW_data (buffer : List Byte) (S c : Int) (n : Nat) (y cur : Int)
    (data : List Byte) (log : List Int) :
    (loadLinesW buffer S c n y cur data log).2 = loadLines buffer S c n y cur data := by
  induction n generalizing y cur data log with
  | zero => rfl
  | succ n ih =>
    simp only [loadLinesW, loadLines]
    rw [← memcpyW_data buffer (toSizeT S) (S * y) cur data log]
    split
    · rename_i e
      simp only [e]
    · rename_i log1 data1 e
      simp only [e]
      rw [← swapLineW_data (S * y) S c S.toNat 0 data1 log1]
      split
      · rename_i e2
        simp only [e2]
      · rename_i log2 data2 e2
        simp only [e2]
        exact ih _ _ _ _

theorem loadLinesW_log (buffer : List Byte) (S c : Int) (n : Nat) (y cur : Int)
    (data : List Byte) (log : List Int) (hc : c = 3 ∨ c = 4) (hS : 0 ≤ S) (hSc : S % c = 0)
    (idx : Int) (h : idx ∈ (loadLinesW buffer S c n y cur data log).1) :
    idx ∈ log ∨ (S * y ≤ idx ∧ idx < S * y + S * n) := by
  induction n generalizing y cur data log with
  | zero => exact Or.inl h
  | succ n ih =>
    have e1 : S * ((n : Int) + 1) = S * n + S := by ring
    have e2 : S * (y + 1) = S * y + S := by ring
    have g1 : 0 ≤ S * (n : Int) := Int.mul_nonneg hS (by omega)
    have m1 : ∀ j, j ∈ (memcpyW buffer S.toNat (S * y) cur data log).1 →
        j ∈ log ∨ (S * y ≤ j ∧ j < S * y + S) := by
      intro j hj
      rcases memcpyW_log _ _ _ _ _ _ _ hj with q | q
      · exact Or.inl q
      · right; omega
    simp only [loadLinesW, toSizeT_of_nonneg S hS] at h
    split at h
    · rename_i log1 e
      have hm := m1 idx (by rw [e]; exact h)
      rcases hm with q | q
      · exact Or.inl q
      · right; push_cast; omega
    · rename_i log1 data1 e
      have s1 : ∀ j, j ∈ (swapLineW (S * y) S c S.toNat 0 data1 log1).1 →
          j ∈ log ∨ (S * y ≤ j ∧ j < S * y + S) := by
        intro j hj
        rcases swapLineW_log _ _ _ _ _ _ _ hc (le_refl 0) (by simp) hSc _ hj with q | q
        · exact m1 j (by rw [e]; exact q)
        · right; omega
      split at h
      · rename_i log2 e2
        rcases s1 idx (by rw [e2]; exact h) with q | q
        · exact Or.inl q
        · right; push_cast; omega
      · rename_i log2 data2 e2
        rcases ih _ _ _ _ h with q | q
        · rcases s1 idx (by rw [e2]; exact q) with q1 | q1
          · exact Or.inl q1
          · right; push_cast; omega
        · right; push_cast; omega

theorem load16W_data (buffer : List Byte) (n : Nat) (i cur : Int) (data : List Byte)
    (log : List Int) : (load16W buffer n i cur data log).2 = load16 buffer n i cur data := by
  induction n generalizing i cur data log with
  | zero => rfl
  | succ n ih =>
    simp only [load16W, load16]
    cases peek buffer cur with
    | none => rfl
    | some lo =>
      cases peek buffer (cur + 1) with
      | none => rfl
      | some hi => exact ih _ _ _ _

theorem load16W_log (buffer : List Byte) (n : Nat) (i cur : Int) (data : List Byte)
    (log : List Int) (idx : Int) (h : idx ∈ (load16W buffer n i cur data log).1) :
    idx ∈ log ∨ (i * 3 ≤ idx ∧ idx < (i + n) * 3) := by
  induction n generalizing i cur data log with
  | zero => exact Or.inl h
  | succ n ih =>
    simp only [load16W] at h
    split at h
    · rcases ih _ _ _ _ h with h1 | h1
      · rcases List.mem_append.mp h1 with h2 | h2
        · exact Or.inl h2
        · right
          simp only [List.mem_cons, List.mem_singleton, List.not_mem_nil, or_false] at h2
          push_cast
          omega
      · right
        push_cast
        omega
    · exact Or.inl h

theorem loadUncompressedW_loaded (junk : Nat → Byte) (buffer : List Byte) (h : Header)
    (hh : readHeader buffer = some h) (ht : h.imageType ≠ TGA_RLE) :
    (loadUncompressedW junk buffer h).2 = loadTGA junk buffer := by
  simp only [loadTGA, hh, loadUncompressedW, ht, ne_eq, not_false_eq_true, if_true]
  split
  · cases newBytes junk (toInt (h.bits.tdiv 8 * h.width * h.height)) with
    | none => rfl
    | some data =>
      simp only []
      rw [← loadLinesW_data buffer (h.bits.tdiv 8 * h.width) (h.bits.tdiv 8) h.height.toNat 0
        (17 + (h.length + 1)) data []]
      split
      · rename_i e
        simp only [e]
      · rename_i e
        simp only [e]
  · split
    · cases newBytes junk (toInt (3 * h.width * h.height)) with
      | none => rfl
      | some data =>
        simp only []
        rw [← load16W_data buffer (h.width * h.height).toNat 0 (17 + (h.length + 1)) data []]
        split
        · rename_i e
          simp only [e]
        · rename_i e
          simp only [e]
    · rfl

theorem loadUncompressedW_log (junk : Nat → Byte) (buffer : List Byte) (h : Header)
    (hb : h.bits = 16 ∨ h.bits = 24 ∨ h.bits = 32) (hw : 0 ≤ h.width) (hht : 0 ≤ h.height)
    (idx : Int) (hi : idx ∈ (loadUncompressedW junk buffer h).1) :
    0 ≤ idx ∧ idx < (if h.bits = 16 then 3 else h.bits.tdiv 8) * h.width * h.height := by
  have hn : ((h.height.toNat : Nat) : Int) = h.height := Int.toNat_of_nonneg hht
  have hwh : 0 ≤ h.width * h.height := Int.mul_nonneg hw hht
  have hn2 : (((h.width * h.height).toNat : Nat) : Int) = h.width * h.height :=
    Int.toNat_of_nonneg hwh
  unfold loadUncompressedW at hi
  split at hi
  · rename_i hb2
    have hc : h.bits.tdiv 8 = 3 ∨ h.bits.tdiv 8 = 4 := by
      rcases hb2 with e | e <;> rw [e] <;> decide
    have h16 : ¬ h.bits = 16 := by rcases hb2 with e | e <;> omega
    rw [if_neg h16]
    have hS : 0 ≤ h.bits.tdiv 8 * h.width := by
      rcases hc with e | e <;> rw [e] <;> omega
    have hSc : (h.bits.tdiv 8 * h.width) % h.bits.tdiv 8 = 0 := by
      rcases hc with e | e <;> rw [e] <;> omega
    have key : ∀ (log : List Int) (data : List Byte),
        idx ∈ (loadLinesW buffer (h.bits.tdiv 8 * h.width) (h.bits.tdiv 8) h.height.toNat 0
          (17 + (h.length + 1)) data []).1 →
        0 ≤ idx ∧ idx < h.bits.tdiv 8 * h.width * h.height := by
      intro _ data hm
      rcases loadLinesW_log _ _ _ _ _ _ _ _ hc hS hSc idx hm with q | q
      · exact absurd q (List.not_mem_nil idx)
      · rw [hn] at q
        omega
    split at hi
    · exact absurd hi (List.not_mem_nil idx)
    · rename_i data _
      split at hi
      · rename_i log e
        exact key log data (by rw [e]; exact hi)
      · rename_i log data1 e
        exact key log data (by rw [e]; exact hi)
  · split at hi
    · rename_i h16
      rw [if_pos h16]
      have key : ∀ (data : List Byte),
          idx ∈ (load16W buffer (h.width * h.height).toNat 0 (17 + (h.length + 1)) data []).1 →
          0 ≤ idx ∧ idx < 3 * h.width * h.height := by
        intro data hm
        rcases load16W_log _ _ _ _ _ _ idx hm with q | q
        · exact absurd q (List.not_mem_nil idx)
        · rw [hn2] at q
          have e : 3 * h.width * h.height = 3 * (h.width * h.height) := by ring
          rw [e]
          omega
      split at hi
      · exact absurd hi (List.not_mem_nil idx)
      · rename_i data _
        split at hi
        · rename_i log e
          exact key data (by rw [e]; exact hi)
        · rename_i log data1 e
          exact key data (by rw [e]; exact hi)
    · rename_i h2 h16
      exact absurd hb (by omega)

theorem newBytes_nonneg (junk : Nat → Byte) (n : Int) (data : List Byte)
    (h : newBytes junk n = some data) : 0 ≤ n := by
  unfold newBytes at h
  split at h
  · assumption
  · exact Option.noConfusion h

/-- A store is made only after the allocation has succeeded: the size is not negative as an
`int`. -/
theorem loadUncompressedW_alloc (junk : Nat → Byte) (buffer : List Byte) (h : Header)
    (idx : Int) (hi : idx ∈ (loadUncompressedW junk buffer h).1) :
    0 ≤ toInt ((if h.bits = 16 then 3 else h.bits.tdiv 8) * h.width * h.height) := by
  unfold loadUncompressedW at hi
  split at hi
  · rename_i hb2
    have h16 : ¬ h.bits = 16 := by rcases hb2 with e | e <;> omega
    rw [if_neg h16]
    split at hi
    · exact absurd hi (List.not_mem_nil idx)
    · rename_i data hd
      exact newBytes_nonneg _ _ _ hd
  · split at hi
    · rename_i h16
      rw [if_pos h16]
      split at hi
      · exact absurd hi (List.not_mem_nil idx)
      · rename_i data hd
        exact newBytes_nonneg _ _ _ hd
    · exact absurd hi (List.not_mem_nil idx)

/-- C22: on every input whose header has an image type other than RLE, a pixel depth of 16, 24
or 32 bits and non-negative width and height, the stores of `loadTGA` are those of
`loadUncompressedW` (same outcome), and every index at which the destination buffer is stored
to, the swap's `pLine[i + 2]` and the 16-bit path's `data[i*3 + 2]` included, is at least 0 and
strictly less than the allocated size `stride * height`, where `stride = channels * width`:
less than the product and less than its `int` value, the size given to `new`. -/
theorem loadTGA_uncompressed_stores (junk : Nat → Byte) (buffer : List Byte) (h : Header)
    (hh : readHeader buffer = some h) (ht : h.imageType ≠ TGA_RLE)
    (hb : h.bits = 16 ∨ h.bits = 24 ∨ h.bits = 32) (hw : 0 ≤ h.width) (hht : 0 ≤ h.height) :
    (loadUncompressedW junk buffer h).2 = loadTGA junk buffer ∧
    ∀ idx ∈ (loadUncompressedW junk buffer h).1,
      0 ≤ idx ∧ idx < (if h.bits = 16 then 3 else h.bits.tdiv 8) * h.width * h.height ∧
      idx < toInt ((if h.bits = 16 then 3 else h.bits.tdiv 8) * h.width * h.height) := by
  refine ⟨loadUncompressedW_loaded junk buffer h hh ht, fun idx hi => ?_⟩
  obtain ⟨i0, i1⟩ := loadUncompressedW_log junk buffer h hb hw hht idx hi
  have ha := loadUncompressedW_alloc junk buffer h idx hi
  obtain ⟨⟨_, w1⟩, ⟨_, h1⟩, _, _⟩ := readHeader_range buffer h hh
  have hc : (if h.bits = 16 then 3 else h.bits.tdiv 8) = 3 ∨
      (if h.bits = 16 then 3 else h.bits.tdiv 8) = 4 := by
    rcases hb with e | e | e <;> rw [e] <;> decide
  obtain ⟨t1, t2⟩ := toInt_size _ h.width h.height hc hw w1 hht h1
  rw [t2 (t1.mp ha)]
  exact ⟨i0, i1, i1⟩

/-- C22 on the files `tga24` (stores at 0, 1, 2 by the copy, then 0 and 2 by the swap, in a
block of 3 bytes) and `tga16`. -/
theorem loadTGA_uncompressed_stores_witness :
    readHeader tga24 = some tga24Header ∧
    (loadUncompressedW zeroFill tga24 tga24Header).1 = [0, 1, 2, 0, 2] ∧
    (loadUncompressedW zeroFill tga16 tga16Header).1 = [0, 1, 2, 3, 4, 5] ∧
    ((loadUncompressedW zeroFill tga24 tga24Header).2 = loadTGA zeroFill tga24 ∧
      ∀ idx ∈ (loadUncompressedW zeroFill tga24 tga24Header).1,
        0 ≤ idx ∧ idx < (if tga24Header.bits = 16 then 3 else tga24Header.bits.tdiv 8) *
          tga24Header.width * tga24Header.height ∧
        idx < toInt ((if tga24Header.bits = 16 then 3 else tga24Header.bits.tdiv 8) *
          tga24Header.width * tga24Header.height)) :=
  ⟨by decide, by decide, by decide,
   loadTGA_uncompressed_stores zeroFill tga24 tga24Header (by decide) (by decide) (by decide)
     (by decide) (by decide)⟩

/-! ## The claim on RLE streams of raw packets -/

theorem rawPackets_length (c : Nat) (counts : List Nat) (px : List Byte)
    (hpx : px.length = c * counts.sum) :
    (rawPackets c counts px).length = counts.length + c * counts.sum := by
  induction counts generalizing px with
  | nil => rfl
  | cons n rest ih =>
    have e : c * (n :: rest).sum = c * n + c * rest.sum := by
      rw [List.sum_cons, Nat.mul_add]
    rw [e] at hpx
    have hd : (px.drop (c * n)).length = c * rest.sum := by
      rw [List.length_drop]; omega
    simp only [rawPackets, List.length_cons, List.length_append, List.length_take, ih _ hd, e]
    omega

end CEGUI
